import Mathlib

/-!
Verification development for the newpkg dependency resolver
(`src/newpkg/lib/deps.py`).

The Python module builds a directed dependency graph with `networkx`
(`DiGraph`), where an edge `A -> B` means "A depends on B".  We embed the
graph as insertion-ordered lists of nodes (with dict-style attribute
association lists) and edges, matching `networkx` semantics for
`add_node` (attribute merge), `add_edge` (endpoint creation, at most one
edge per ordered pair) and `successors` (edge-insertion order).

Python values that can appear as node attributes in this module are
`None`, strings and lists of strings; they are embedded as `AVal`.
Machine integers do not occur in the modelled code paths.
-/

namespace Newpkg

/-- Node-attribute values occurring in the modelled code: Python `None`,
strings, and lists of strings (dependency/provides lists). -/
inductive AVal where
  | null : AVal
  | s (v : String) : AVal
  | strs (v : List String) : AVal
deriving DecidableEq, Repr

/-- Python exceptions that the modelled code can raise. -/
inductive PyErr where
  | indexError : PyErr
  | networkxError : PyErr
deriving DecidableEq, Repr

/-- Attribute dictionaries are association lists in insertion order,
mirroring Python dicts. -/
abbrev Attrs := List (String × AVal)

/-- Python `d[k] = v`: replace the value in place if the key exists,
otherwise append the pair. -/
def upsert (m : Attrs) (k : String) (v : AVal) : Attrs :=
  match m with
  | [] => [(k, v)]
  | (k0, v0) :: rest => if k0 = k then (k, v) :: rest else (k0, v0) :: upsert rest k v

/-- Python `d.update(other)`: upsert every pair of `other` in order. -/
def dictUpdate (m : Attrs) (other : Attrs) : Attrs :=
  other.foldl (fun acc kv => upsert acc kv.1 kv.2) m

/-- Association-list lookup, mirroring Python `d.get(k)`. -/
def alookup (m : Attrs) (k : String) : Option AVal :=
  match m with
  | [] => none
  | (k0, v0) :: rest => if k0 = k then some v0 else alookup rest k

/-- The dependency graph: `networkx.DiGraph` restricted to string nodes.
Both lists are kept in insertion order, as `networkx` does. -/
structure Graph where
  nodes : List (String × Attrs)
  edges : List (String × String)
deriving DecidableEq, Repr

def emptyGraph : Graph := ⟨[], []⟩

def Graph.nodeNames (g : Graph) : List String := g.nodes.map Prod.fst

/-- `networkx` `add_node(n, **attrs)`: merge attributes into an existing
node, or append a fresh node.  (At every call site of the Python module
the attribute argument comes from a Python dict, so its keys are
distinct.) -/
def addNode (g : Graph) (n : String) (attrs : Attrs) : Graph :=
  if n ∈ g.nodeNames then
    { g with nodes := g.nodes.map (fun p => if p.1 = n then (p.1, dictUpdate p.2 attrs) else p) }
  else
    { g with nodes := g.nodes ++ [(n, attrs)] }

/-- Edge insertion once both endpoints exist: at most one edge per
ordered pair. -/
def addEdgeRaw (g : Graph) (u v : String) : Graph :=
  if (u, v) ∈ g.edges then g else { g with edges := g.edges ++ [(u, v)] }

/-- `networkx` `add_edge(u, v)`: create missing endpoints, then add the
edge unless it is already present. -/
def addEdge (g : Graph) (u v : String) : Graph :=
  addEdgeRaw (addNode (addNode g u []) v []) u v

/-- `networkx` `successors(n)`: targets of edges leaving `n`, in edge
insertion order. -/
def successors (g : Graph) (n : String) : List String :=
  (g.edges.filter (fun e => e.1 == n)).map Prod.snd

/-- Python `self.graph.nodes[n][k] = v` (used for the `optional`
attribute; the node is always present at the call site). -/
def setAttr (g : Graph) (n k : String) (v : AVal) : Graph :=
  { g with nodes := g.nodes.map (fun p => if p.1 = n then (p.1, upsert p.2 k v) else p) }

/-- Well-formedness maintained by every graph operation of the module:
distinct node names, no duplicate edges, edge endpoints are nodes. -/
def WFGraph (g : Graph) : Prop :=
  g.nodeNames.Nodup ∧ g.edges.Nodup ∧
    ∀ e ∈ g.edges, e.1 ∈ g.nodeNames ∧ e.2 ∈ g.nodeNames

instance : DecidablePred WFGraph := fun g => by
  unfold WFGraph; infer_instance

/-! ### Descriptor normalization (`norm_list` in `add_package_from_metafile`) -/

/-- Python `str.split()` whitespace characters. -/
def isPyWs (c : Char) : Bool :=
  c == ' ' || c == '\t' || c == '\n' || c == '\x0b' || c == '\x0c' || c == '\r'

/-- Python `str.split()` with no separator: whitespace-delimited words,
leading/trailing/repeated whitespace dropped. -/
def pyWords : List Char → List (List Char)
  | [] => []
  | c :: rest =>
    if isPyWs c then pyWords rest
    else (c :: rest.takeWhile (fun d => !isPyWs d)) :: pyWords (rest.dropWhile (fun d => !isPyWs d))
termination_by l => l.length
decreasing_by
  · simp only [List.length_cons]; omega
  · simp only [List.length_cons]
    exact Nat.lt_succ_of_le (List.dropWhile_sublist _).length_le

/-- Python `s.split(sep)[0]` for a non-empty separator: the prefix of `s`
before the first occurrence of `sep` (all of `s` if `sep` never occurs). -/
def cutBefore (pat : List Char) : List Char → List Char
  | [] => []
  | c :: rest => if pat.isPrefixOf (c :: rest) then [] else c :: cutBefore pat rest

/-- The version-constraint stripping chain of `norm_list`:
`.split(">=")[0].split("<=")[0].split("==")[0].split(">")[0].split("<")[0]`. -/
def stripOps (w : List Char) : List Char :=
  cutBefore "<".data (cutBefore ">".data (cutBefore "==".data
    (cutBefore "<=".data (cutBefore ">=".data w))))

/-- `norm_list`'s string branch: `it.split()[0]` raises `IndexError` on a
whitespace-only token, otherwise the first word with trailing version
constraints stripped. -/
def normStrTok (s : String) : Except PyErr String :=
  match pyWords s.data with
  | [] => .error .indexError
  | w :: _ => .ok (String.mk (stripOps w))

/-- One entry of a raw dependency list: a string token, a structured
entry with a `name` field, or anything else (skipped by `norm_list`). -/
inductive DepEntry where
  | tok (s : String) : DepEntry
  | named (s : String) : DepEntry
  | other : DepEntry
deriving DecidableEq, Repr

/-- `norm_list`: normalize string tokens, take `name` fields verbatim,
skip everything else; an `IndexError` from a whitespace-only token
propagates. -/
def normList : List DepEntry → Except PyErr (List String)
  | [] => .ok []
  | .tok s :: rest =>
    match normStrTok s with
    | .error e => .error e
    | .ok w =>
      match normList rest with
      | .error e => .error e
      | .ok ws => .ok (w :: ws)
  | .named s :: rest =>
    match normList rest with
    | .error e => .error e
    | .ok ws => .ok (s :: ws)
  | .other :: rest => normList rest

/-! ### `add_package_from_metafile` -/

/-- A parsed metafile, after the YAML/JSON decoding that is out of scope
here.  `name` is the first truthy of `name`/`package`/`pkgname`;
`buildDepends` is `build.depends` (or `build.depends_on`), `buildOptional`
is `build.optional`, `runtimeDepends` is `runtime.depends`; a missing or
non-dict section yields empty lists. -/
structure Metafile where
  name : Option String
  version : Option String
  origin : String
  provides : List String
  buildDepends : List DepEntry
  buildOptional : List DepEntry
  runtimeDepends : List DepEntry
deriving DecidableEq, Repr

def ovAVal : Option String → AVal
  | none => .null
  | some s => .s s

/-- First-occurrence deduplication; models the `set(build_deps + run_deps)`
iteration of `add_package_from_metafile` (the Python set order is
unspecified; no property proved below depends on this order). -/
def dedupKeep (l : List String) : List String :=
  l.foldl (fun acc x => if x ∈ acc then acc else acc ++ [x]) []

/-- `add_package_from_metafile` from the point where the metafile dict is
available.  Returns `none` when the descriptor has no (truthy) name, the
new graph and the name otherwise; raises `IndexError` out of `norm_list`
before any graph mutation. -/
def addPackageFromMetafile (g : Graph) (m : Metafile) : Except PyErr (Graph × Option String) :=
  match m.name with
  | none => .ok (g, none)
  | some name =>
    if name = "" then .ok (g, none)
    else
      match normList m.buildDepends with
      | .error e => .error e
      | .ok bd =>
        match normList m.runtimeDepends with
        | .error e => .error e
        | .ok rd =>
          match normList m.buildOptional with
          | .error e => .error e
          | .ok opt =>
            let g1 := addNode g name
              [("version", ovAVal m.version), ("origin", .s m.origin),
               ("provides", .strs m.provides), ("optional", .strs opt)]
            let g2 := (dedupKeep (bd ++ rd)).foldl
              (fun gg d => if d = name then gg else addEdge (addNode gg d []) name d) g1
            let g3 := if opt = [] then g2 else setAttr g2 name "optional" (.strs opt)
            .ok (g3, some name)

/-- A graph built by a sequence of `add_package_from_metafile` calls
(a call that raises leaves the graph unchanged, since the `IndexError`
is raised before any mutation). -/
def buildGraph (ms : List Metafile) : Graph :=
  ms.foldl (fun g m =>
    match addPackageFromMetafile g m with
    | .ok (g2, _) => g2
    | .error _ => g) emptyGraph

/-! ### Graph cache (`persist_cache` / `_try_load_cache`)

The on-disk cache is JSON: a mapping from node name to
`{"attrs": ..., "deps": [...]}`.  The decoded document is embedded by
shape: `CacheFile` distinguishes a missing file, an unreadable file, an
undecodable file and a decoded value; `CacheDoc`/`CacheMeta`/... give the
decoded value's structure as seen by the two reconstruction loops.
Within this model, `deps` arrays contain strings (giving edges) or
unhashable values (lists/objects, on which `add_edge` raises `TypeError`);
iterating a string yields its characters and iterating an object yields
its keys, exactly as in Python. -/

inductive CDepItem where
  | dstr (s : String) : CDepItem
  | dunhashable : CDepItem
deriving DecidableEq, Repr

inductive CacheDeps where
  | absent : CacheDeps
  | nonIterable : CacheDeps
  | depsArr (items : List CDepItem) : CacheDeps
  | depsStr (s : String) : CacheDeps
  | depsObjKeys (ks : List String) : CacheDeps
deriving DecidableEq, Repr

inductive CacheAttrs where
  | absent : CacheAttrs
  | nonDict : CacheAttrs
  | attrsObj (kvs : Attrs) : CacheAttrs
deriving DecidableEq, Repr

inductive CacheMeta where
  | nonDict : CacheMeta
  | metaObj (attrs : CacheAttrs) (deps : CacheDeps) : CacheMeta
deriving DecidableEq, Repr

inductive CacheDoc where
  | nonDict : CacheDoc
  | dict (entries : List (String × CacheMeta)) : CacheDoc
deriving DecidableEq, Repr

inductive CacheFile where
  | missing : CacheFile
  | readError : CacheFile
  | decodeError : CacheFile
  | decoded (doc : CacheDoc) : CacheFile
deriving DecidableEq, Repr

/-- The `out` mapping written by `persist_cache`: for each node, its
attribute dict and its direct successor list (JSON round-trips these
shapes identically). -/
def serializeCache (g : Graph) : List (String × CacheMeta) :=
  g.nodes.map (fun p =>
    (p.1, CacheMeta.metaObj (.attrsObj p.2) (.depsArr ((successors g p.1).map CDepItem.dstr))))

/-- First reconstruction loop of `_try_load_cache`:
`add_node(node, **meta.get("attrs", {}))` for each entry; an exception
(`meta` or `attrs` not a dict) aborts, keeping the partially built graph. -/
def loadNodesLoop (g : Graph) : List (String × CacheMeta) → Except Graph Graph
  | [] => .ok g
  | (n, m) :: rest =>
    match m with
    | .nonDict => .error g
    | .metaObj attrs _ =>
      match attrs with
      | .absent => loadNodesLoop (addNode g n []) rest
      | .nonDict => .error g
      | .attrsObj kvs => loadNodesLoop (addNode g n kvs) rest

/-- `add_edge(node, dep)` for each item of a `deps` array; a list or
object item is unhashable, so `add_edge` raises after the earlier edges
were added. -/
def loadItems (g : Graph) (n : String) : List CDepItem → Except Graph Graph
  | [] => .ok g
  | .dstr s :: rest => loadItems (addEdge g n s) n rest
  | .dunhashable :: _ => .error g

/-- Edge creation for one entry's `deps` field in the second loop of
`_try_load_cache`. -/
def loadEdgesOne (g : Graph) (n : String) : CacheDeps → Except Graph Graph
  | .absent => .ok g
  | .nonIterable => .error g
  | .depsArr items => loadItems g n items
  | .depsStr s => .ok (s.data.foldl (fun gg c => addEdge gg n (String.mk [c])) g)
  | .depsObjKeys ks => .ok (ks.foldl (fun gg k => addEdge gg n k) g)

/-- Second reconstruction loop of `_try_load_cache` (the `nonDict` case
is unreachable when the first loop succeeded). -/
def loadEdgesLoop (g : Graph) : List (String × CacheMeta) → Except Graph Graph
  | [] => .ok g
  | (_, .nonDict) :: _ => .error g
  | (n, .metaObj _ deps) :: rest =>
    match loadEdgesOne g n deps with
    | .ok g2 => loadEdgesLoop g2 rest
    | .error gp => .error gp

/-- `_try_load_cache`: the whole body is wrapped in `try/except`, so no
exception escapes; the returned flag is `loaded_from_cache`.  The graph
is cleared only after `json.load` succeeds, and an exception inside the
loops keeps whatever was already rebuilt. -/
def tryLoadCache (g : Graph) (c : CacheFile) : Graph × Bool :=
  match c with
  | .missing => (g, false)
  | .readError => (g, false)
  | .decodeError => (g, false)
  | .decoded .nonDict => (emptyGraph, false)
  | .decoded (.dict entries) =>
    match loadNodesLoop emptyGraph entries with
    | .error gp => (gp, false)
    | .ok g1 =>
      match loadEdgesLoop g1 entries with
      | .error gp => (gp, false)
      | .ok g2 => (g2, true)

/-! ### Resolution (`resolve`)

`resolve` collects the dependency closure of the root by an explicit
stack-based depth-first traversal, optionally merges accepted optional
candidates, detects simple cycles on the induced subgraph and otherwise
returns the reversed topological order.  The `networkx` calls
(`simple_cycles`, `topological_sort`, `successors`) are embedded by their
documented behaviour; `successors` on a node absent from the graph raises
(`networkxError`). -/

def Edge (g : Graph) (u v : String) : Prop := (u, v) ∈ g.edges

instance (g : Graph) : DecidableRel (Edge g) := fun _ _ => by
  unfold Edge; infer_instance

theorem successors_mem (g : Graph) (c x : String) :
    x ∈ successors g c ↔ (c, x) ∈ g.edges := by
  unfold successors
  simp only [List.mem_map, List.mem_filter, beq_iff_eq]
  constructor
  · rintro ⟨e, ⟨he, hfst⟩, hsnd⟩
    have : e = (c, x) := by cases e; simp_all
    exact this ▸ he
  · intro h
    exact ⟨(c, x), ⟨h, rfl⟩, rfl⟩

/-! Helper lemmas for the termination measures of the traversal loops. -/

theorem length_filter_le_of_imp {α} (l : List α) (p q : α → Bool)
    (himp : ∀ x, q x = true → p x = true) :
    (l.filter q).length ≤ (l.filter p).length := by
  induction l with
  | nil => simp
  | cons a t ih =>
    by_cases hq : q a = true
    · simp [List.filter_cons, hq, himp a hq]; omega
    · have hq' : q a = false := by simpa using hq
      by_cases hp : p a = true
      · simp [List.filter_cons, hq', hp]; omega
      · have hp' : p a = false := by simpa using hp
        simp [List.filter_cons, hq', hp']; omega

theorem length_filter_lt_of_imp {α} (l : List α) (p q : α → Bool)
    (himp : ∀ x, q x = true → p x = true)
    (e0 : α) (he : e0 ∈ l) (hp0 : p e0 = true) (hq0 : q e0 = false) :
    (l.filter q).length < (l.filter p).length := by
  induction l with
  | nil => cases he
  | cons a t ih =>
    rcases List.mem_cons.1 he with h | h
    · subst h
      simp only [List.filter_cons, hp0, hq0, if_true]
      simp only [Bool.false_eq_true, if_false, List.length_cons]
      exact Nat.lt_succ_of_le (length_filter_le_of_imp t p q himp)
    · have hih := ih h
      by_cases hq : q a = true
      · simp only [List.filter_cons, hq, himp a hq, if_true, List.length_cons]
        omega
      · have hq' : q a = false := by simpa using hq
        by_cases hp : p a = true
        · simp only [List.filter_cons, hq', hp, if_true]
          simp only [Bool.false_eq_true, if_false, List.length_cons]
          omega
        · have hp' : p a = false := by simpa using hp
          simp only [List.filter_cons, hq', hp']
          simp only [Bool.false_eq_true, if_false]
          exact hih

theorem length_filter_lt_of_mem_not {α} (l : List α) (p : α → Bool) (x : α)
    (hx : x ∈ l) (hp : p x = false) : (l.filter p).length < l.length := by
  have := length_filter_lt_of_imp l (fun _ => true) p (by simp) x hx rfl hp
  simpa using this

/-- Splitting the count of edges out of unvisited sources when `cur`
becomes visited. -/
theorem dfs_measure_split (edges : List (String × String)) (visited : List String)
    (cur : String) (h : cur ∉ visited) :
    (edges.filter (fun e => decide (e.1 ∉ cur :: visited))).length +
      (edges.filter (fun e => e.1 == cur)).length =
    (edges.filter (fun e => decide (e.1 ∉ visited))).length := by
  induction edges with
  | nil => simp
  | cons e t ih =>
    by_cases hc : e.1 = cur
    · have h1 : (decide (e.1 ∉ cur :: visited)) = false := by simp [hc]
      have h2 : (e.1 == cur) = true := by simp [hc]
      have h3 : (decide (e.1 ∉ visited)) = true := by simp [hc]; exact h
      simp only [List.filter_cons, h1, h2, h3, if_true]
      simp only [Bool.false_eq_true, if_false, List.length_cons]
      omega
    · by_cases hv : e.1 ∈ visited
      · have h1 : (decide (e.1 ∉ cur :: visited)) = false := by simp [hv]
        have h2 : (e.1 == cur) = false := by simpa using hc
        have h3 : (decide (e.1 ∉ visited)) = false := by simp [hv]
        simp only [List.filter_cons, h1, h2, h3]
        simp only [Bool.false_eq_true, if_false]
        exact ih
      · have h1 : (decide (e.1 ∉ cur :: visited)) = true := by simp [hc, hv]
        have h2 : (e.1 == cur) = false := by simpa using hc
        have h3 : (decide (e.1 ∉ visited)) = true := by simp [hv]
        simp only [List.filter_cons, h1, h2, h3, if_true]
        simp only [Bool.false_eq_true, if_false, List.length_cons]
        omega

def nodeAttrs (g : Graph) (n : String) : Attrs :=
  (g.nodes.lookup n).getD []

/-- Python `nodes[cur].get("optional") or []`, followed by iteration:
a list of strings iterates as such, a non-empty string iterates over its
characters, every falsy value gives `[]`. -/
def avalOptional : Option AVal → List String
  | some (.strs l) => l
  | some (.s s) => s.data.map (fun ch => String.mk [ch])
  | _ => []

def dfsMeasure (g : Graph) (stack visited : List String) : Nat :=
  stack.length + (g.edges.filter (fun e => decide (e.1 ∉ visited))).length

theorem dfs_dec (g : Graph) (cur : String) (rest visited : List String)
    (h : cur ∉ visited) :
    dfsMeasure g (((successors g cur).filter (fun d => d != cur)).reverse ++ rest)
      (cur :: visited) < dfsMeasure g (cur :: rest) visited := by
  unfold dfsMeasure
  have hsplit := dfs_measure_split g.edges visited cur h
  have hlen : ((successors g cur).filter (fun d => d != cur)).length ≤
      (g.edges.filter (fun e => e.1 == cur)).length := by
    calc ((successors g cur).filter (fun d => d != cur)).length
        ≤ (successors g cur).length := (List.filter_sublist _).length_le
      _ = (g.edges.filter (fun e => e.1 == cur)).length := by
          unfold successors; simp
  simp only [List.length_append, List.length_reverse, List.length_cons]
  omega

/-- The dependency-collection loop of `resolve`: pop, skip visited nodes,
otherwise record non-self successors into the dependency set and the
stack and record the node's declared optional candidates.  Popping a node
absent from the graph raises (`successors` on a missing node). -/
def dfs (g : Graph) (stack visited deps : List String)
    (asks : List (String × List String)) :
    Except PyErr (List String × List String × List (String × List String)) :=
  match stack with
  | [] => .ok (visited, deps, asks)
  | cur :: rest =>
    if cur ∈ visited then dfs g rest visited deps asks
    else if cur ∈ g.nodeNames then
      let succs := (successors g cur).filter (fun d => d != cur)
      let deps2 := succs.foldl (fun acc d => if d ∈ acc then acc else acc ++ [d]) deps
      let opt := avalOptional (alookup (nodeAttrs g cur) "optional")
      let asks2 := if opt = [] then asks else asks ++ [(cur, opt)]
      dfs g (succs.reverse ++ rest) (cur :: visited) deps2 asks2
    else .error .networkxError
termination_by dfsMeasure g stack visited
decreasing_by
  · simp only [dfsMeasure, List.length_cons]; omega
  · exact dfs_dec _ _ _ _ (by assumption)

/-- The inner loop of the per-candidate optional merge: walk the
successor list, adding unseen targets to both the dependency set and the
push list. -/
def processSuccs (deps : List String) : List String → List String × List String
  | [] => (deps, [])
  | d :: ds =>
    if d ∈ deps then processSuccs deps ds
    else
      let pr := processSuccs (deps ++ [d]) ds
      (pr.1, d :: pr.2)

theorem processSuccs_fst (l : List String) :
    ∀ deps, (processSuccs deps l).1 = deps ++ (processSuccs deps l).2 := by
  induction l with
  | nil => intro deps; simp [processSuccs]
  | cons d ds ih =>
    intro deps
    by_cases hd : d ∈ deps
    · simpa [processSuccs, hd] using ih deps
    · have := ih (deps ++ [d])
      simp [processSuccs, hd, this]

theorem processSuccs_snd (l : List String) :
    ∀ deps, (∀ x ∈ (processSuccs deps l).2, x ∈ l ∧ x ∉ deps) ∧
      (processSuccs deps l).2.Nodup := by
  induction l with
  | nil => intro deps; simp [processSuccs]
  | cons d ds ih =>
    intro deps
    by_cases hd : d ∈ deps
    · have := ih deps
      constructor
      · intro x hx
        have h2 := this.1 x (by simpa [processSuccs, hd] using hx)
        exact ⟨List.mem_cons_of_mem _ h2.1, h2.2⟩
      · simpa [processSuccs, hd] using this.2
    · have := ih (deps ++ [d])
      constructor
      · intro x hx
        simp only [processSuccs, hd, if_false] at hx
        rcases List.mem_cons.1 hx with h | h
        · subst h; exact ⟨List.mem_cons_self _ _, hd⟩
        · have h2 := this.1 x h
          constructor
          · exact List.mem_cons_of_mem _ h2.1
          · intro hc; exact h2.2 (by simp [hc])
      · simp only [processSuccs, hd, if_false, List.nodup_cons]
        constructor
        · intro hc
          exact (this.1 d hc).2 (by simp)
        · exact this.2

/-- Adding the freshly pushed targets to the dependency set removes at
least one not-yet-covered edge per target. -/
theorem merge_measure_step (edges : List (String × String)) (c : String) :
    ∀ (p deps : List String),
      (∀ x ∈ p, (c, x) ∈ edges ∧ x ∉ deps) → p.Nodup →
      (edges.filter (fun e => decide (e.2 ∉ deps ++ p))).length + p.length ≤
        (edges.filter (fun e => decide (e.2 ∉ deps))).length := by
  intro p
  induction p with
  | nil => intro deps _ _; simp
  | cons d p' ih =>
    intro deps hp hnd
    have hassoc : deps ++ d :: p' = (deps ++ [d]) ++ p' := by simp
    rw [hassoc]
    have hih := ih (deps ++ [d])
      (by
        intro x hx
        refine ⟨(hp x (List.mem_cons_of_mem _ hx)).1, ?_⟩
        intro hc
        rcases List.mem_append.1 hc with h | h
        · exact (hp x (List.mem_cons_of_mem _ hx)).2 h
        · have : x = d := by simpa using h
          subst this
          exact (List.nodup_cons.1 hnd).1 hx)
      (List.nodup_cons.1 hnd).2
    have hstrict : (edges.filter (fun e => decide (e.2 ∉ deps ++ [d]))).length <
        (edges.filter (fun e => decide (e.2 ∉ deps))).length := by
      refine length_filter_lt_of_imp edges _ _ ?_ (c, d) (hp d (List.mem_cons_self _ _)).1 ?_ ?_
      · intro x hx
        simp only [decide_eq_true_eq] at hx ⊢
        intro hc; exact hx (by simp [hc])
      · simp [(hp d (List.mem_cons_self _ _)).2]
      · simp
    simp only [List.length_cons]
    omega

def mergeMeasure (g : Graph) (stack deps : List String) : Nat :=
  stack.length + (g.edges.filter (fun e => decide (e.2 ∉ deps))).length

theorem mergeLoop_dec (g : Graph) (c : String) (rest deps : List String) :
    mergeMeasure g ((processSuccs deps (successors g c)).2.reverse ++ rest)
      (processSuccs deps (successors g c)).1 < mergeMeasure g (c :: rest) deps := by
  unfold mergeMeasure
  have hfst := processSuccs_fst (successors g c) deps
  have hsnd := processSuccs_snd (successors g c) deps
  have hstep := merge_measure_step g.edges c (processSuccs deps (successors g c)).2 deps
    (by
      intro x hx
      exact ⟨(successors_mem g c x).1 (hsnd.1 x hx).1, (hsnd.1 x hx).2⟩)
    hsnd.2
  rw [← hfst] at hstep
  simp only [List.length_append, List.length_reverse, List.length_cons]
  omega

/-- The per-accepted-candidate merge loop of `resolve`: starting from the
candidate, add every not-yet-present successor to the dependency set and
traverse onwards (the dependency set doubles as the visited set here, and
there is no self-edge exclusion). -/
def mergeLoop (g : Graph) (stack deps : List String) : Except PyErr (List String) :=
  match stack with
  | [] => .ok deps
  | c :: rest =>
    if c ∈ g.nodeNames then
      let pr := processSuccs deps (successors g c)
      mergeLoop g (pr.2.reverse ++ rest) pr.1
    else .error .networkxError
termination_by mergeMeasure g stack deps
decreasing_by
  exact mergeLoop_dec _ _ _ _

/-! ### Cycle detection and topological order -/

/-- A simple cycle of the directed graph: a non-empty duplicate-free node
sequence with an edge between consecutive entries and an edge from the
last entry back to the first. -/
def IsSimpleCycle (g : Graph) (c : List String) : Prop :=
  c ≠ [] ∧ c.Nodup ∧ c.Chain' (Edge g) ∧
    ∀ x ∈ c.getLast?, ∀ y ∈ c.head?, Edge g x y

/-- Executable edge-chain check (the library decider for `List.Chain`
does not evaluate inside the kernel). -/
def chainB (g : Graph) : String → List String → Bool
  | _, [] => true
  | a, b :: l => decide (Edge g a b) && chainB g b l

def chainB2 (g : Graph) : List String → Bool
  | [] => true
  | a :: l => chainB g a l

theorem chainB_iff (g : Graph) :
    ∀ (l : List String) (a : String), chainB g a l = true ↔ List.Chain (Edge g) a l := by
  intro l
  induction l with
  | nil =>
    intro a
    exact ⟨fun _ => List.Chain.nil, fun _ => rfl⟩
  | cons b t ih =>
    intro a
    rw [chainB, Bool.and_eq_true, decide_eq_true_eq, ih b, List.chain_cons]

theorem chainB2_iff (g : Graph) (l : List String) :
    chainB2 g l = true ↔ List.Chain' (Edge g) l := by
  cases l with
  | nil => exact ⟨fun _ => trivial, fun _ => rfl⟩
  | cons a t => exact chainB_iff g t a

instance (g : Graph) (c : List String) : Decidable (IsSimpleCycle g c) :=
  decidable_of_iff (c ≠ [] ∧ c.Nodup ∧ chainB2 g c = true ∧
      ∀ x ∈ c.getLast?, ∀ y ∈ c.head?, Edge g x y)
    (by unfold IsSimpleCycle; rw [chainB2_iff])

/-- Canonical representative of a cycle's rotation class: the head is the
member with the smallest node index. -/
def cycleCanon (g : Graph) (c : List String) : Bool :=
  match c with
  | [] => false
  | h :: _ => c.all (fun x => g.nodeNames.indexOf h ≤ g.nodeNames.indexOf x)

/-- All ways to insert `a` into a list (executable permutation
enumeration; the library `List.permutations` does not evaluate inside
the kernel). -/
def insertsB (a : String) : List String → List (List String)
  | [] => [[a]]
  | b :: l => (a :: b :: l) :: (insertsB a l).map (fun r => b :: r)

/-- All permutations of a list, by repeated insertion. -/
def permsB : List String → List (List String)
  | [] => [[]]
  | a :: l => (permsB l).flatMap (insertsB a)

/-- `nx.simple_cycles`, by its documented behaviour: all simple cycles of
the graph, one representative per rotation class. -/
def simpleCycles (g : Graph) : List (List String) :=
  (g.nodeNames.sublists.flatMap permsB).filter
    (fun c => decide (IsSimpleCycle g c) && cycleCanon g c)

/-- Nodes of `remaining` with no incoming edge from `remaining`:
the removal candidates of Kahn's algorithm. -/
def kahnSources (g : Graph) (remaining : List String) : List String :=
  remaining.filter (fun n => g.edges.all (fun e => !(e.2 == n && remaining.contains e.1)))

/-- `nx.topological_sort`, by its documented behaviour (Kahn's
algorithm): `none` models `NetworkXUnfeasible` on a cyclic graph. -/
def kahnAux (g : Graph) (remaining : List String) : Option (List String) :=
  match hr : remaining with
  | [] => some []
  | _ :: _ =>
    let s := kahnSources g remaining
    if hs : s = [] then none
    else
      match kahnAux g (remaining.filter (fun n => !(s.contains n))) with
      | none => none
      | some out => some (s ++ out)
termination_by remaining.length
decreasing_by
  have hmem : ∀ x ∈ s, x ∈ remaining := by
    intro x hx; exact List.mem_of_mem_filter hx
  have hne : ∃ x, x ∈ s := by
    cases hsl : s with
    | nil => exact absurd hsl hs
    | cons a t => exact ⟨a, hsl ▸ List.mem_cons_self a t⟩
  obtain ⟨x, hx⟩ := hne
  have hlt := length_filter_lt_of_mem_not remaining (fun n => !(s.contains n)) x (hmem x hx)
    (by simp [hx])
  rw [← hr]
  exact hlt

/-! ### The resolve pipeline -/

/-- The configuration keys consulted by `resolve`. -/
structure Config where
  resolveOptional : Bool
deriving DecidableEq, Repr

/-- Root-ensuring step of `resolve`: an absent root is looked up in the
ports tree (`fetch` stands for `parse_metafile` by name, which only
returns documents whose name field matched) and added; the returned flag
is false exactly when `resolve` takes its early `return [], []`. -/
def ensureRoot (g : Graph) (fetch : String → Option Metafile) (root : String) :
    Except PyErr (Graph × Bool) :=
  if root ∈ g.nodeNames then .ok (g, true)
  else
    match fetch root with
    | none => .ok (g, false)
    | some m =>
      match addPackageFromMetafile g m with
      | .error e => .error e
      | .ok (g2, added) => .ok (g2, added.isSome)

/-- One optional candidate: ask the decision provider; on yes, fetch the
candidate if absent (a failed fetch is ignored, as `resolve` discards the
return value) and merge its traversal into the dependency set. -/
def optOne (fetch : String → Option Metafile) (prov : String → String → Bool)
    (st : Graph × List String) (parent : String) (o : String) :
    Except PyErr (Graph × List String) :=
  if prov parent o then do
    let g2 ←
      if o ∈ st.1.nodeNames then pure st.1
      else
        match fetch o with
        | none => pure st.1
        | some m => (addPackageFromMetafile st.1 m).map Prod.fst
    let deps2 ← mergeLoop g2 [o] st.2
    pure (g2, deps2)
  else pure st

/-- The optional-dependency prompt loop over all recorded
`(parent, candidates)` pairs, in recording order. -/
def optPhase (fetch : String → Option Metafile) (prov : String → String → Bool)
    (g : Graph) (deps : List String) (asks : List (String × List String)) :
    Except PyErr (Graph × List String) :=
  asks.foldlM (fun st pa => pa.2.foldlM (fun st2 o => optOne fetch prov st2 pa.1 o) st) (g, deps)

/-- `networkx` induced subgraph over a node set (node and edge order
follow the ambient graph). -/
def inducedSubgraph (g : Graph) (ns : List String) : Graph :=
  ⟨g.nodes.filter (fun p => ns.contains p.1),
   g.edges.filter (fun e => ns.contains e.1 && ns.contains e.2)⟩

def joinComma (c : List String) : String := String.intercalate "," c

/-- The intermediate values of one `resolve` call, for stating
properties: the final graph, the DFS results, the subgraph node set and
the returned `(build_order, cycles)` pair. -/
structure ResolveTrace where
  g2 : Graph
  visited : List String
  deps : List String
  asks : List (String × List String)
  subNodes : List String
  subg : Graph
  result : List String × List String
deriving DecidableEq, Repr

/-- The guard around the optional-dependency protocol:
`if optional_to_ask and include_optional_prompt and config["resolve_optional"]`. -/
def optStep (cfg : Config) (fetch : String → Option Metafile)
    (prov : String → String → Bool) (includePrompt : Bool) (g : Graph)
    (deps : List String) (asks : List (String × List String)) :
    Except PyErr (Graph × List String) :=
  if asks ≠ [] ∧ includePrompt = true ∧ cfg.resolveOptional = true then
    optPhase fetch prov g deps asks
  else .ok (g, deps)

/-- `sub_nodes = set(deps_set); sub_nodes.add(root_pkg)`. -/
def resolveSubNodes (deps2 : List String) (root : String) : List String :=
  if root ∈ deps2 then deps2 else deps2 ++ [root]

/-- The tail of `resolve` after the dependency set is final: build the
induced subgraph, report cycles, otherwise reverse a topological order
(`topological_sort` cannot fail on the acyclic subgraph; its `except`
branch returns `([], [])`). -/
def resolveCore (g2 : Graph) (visited deps2 : List String)
    (asks : List (String × List String)) (root : String) : ResolveTrace :=
  if simpleCycles (inducedSubgraph g2 (resolveSubNodes deps2 root)) = [] then
    match kahnAux (inducedSubgraph g2 (resolveSubNodes deps2 root))
        (inducedSubgraph g2 (resolveSubNodes deps2 root)).nodeNames with
    | some topo =>
      ⟨g2, visited, deps2, asks, resolveSubNodes deps2 root,
       inducedSubgraph g2 (resolveSubNodes deps2 root), (topo.reverse, [])⟩
    | none =>
      ⟨g2, visited, deps2, asks, resolveSubNodes deps2 root,
       inducedSubgraph g2 (resolveSubNodes deps2 root), ([], [])⟩
  else
    ⟨g2, visited, deps2, asks, resolveSubNodes deps2 root,
     inducedSubgraph g2 (resolveSubNodes deps2 root),
     ([], (simpleCycles (inducedSubgraph g2 (resolveSubNodes deps2 root))).map joinComma)⟩

/-- `DepResolver.resolve`, instrumented.  The phases follow the source:
ensure the root (early `([], [])` return when it cannot be found),
DFS-collect dependencies and optional candidates, run the
optional-dependency protocol when enabled, then `resolveCore`. -/
def resolveTrace (g : Graph) (cfg : Config) (fetch : String → Option Metafile)
    (prov : String → String → Bool) (root : String) (includePrompt : Bool) :
    Except PyErr ResolveTrace :=
  match ensureRoot g fetch root with
  | .error e => .error e
  | .ok (g1, false) => .ok ⟨g1, [], [], [], [], emptyGraph, ([], [])⟩
  | .ok (g1, true) =>
    match dfs g1 [root] [] [] [] with
    | .error e => .error e
    | .ok (visited, deps, asks) =>
      match optStep cfg fetch prov includePrompt g1 deps asks with
      | .error e => .error e
      | .ok (g2, deps2) => .ok (resolveCore g2 visited deps2 asks root)

/-- `DepResolver.resolve`: the `(build_order, cycles)` pair. -/
def resolve (g : Graph) (cfg : Config) (fetch : String → Option Metafile)
    (prov : String → String → Bool) (root : String) (includePrompt : Bool) :
    Except PyErr (List String × List String) :=
  (resolveTrace g cfg fetch prov root includePrompt).map ResolveTrace.result

/-! ### Orphan detection (`detect_orphans`) -/

/-- One edge `src -> dst` of the reverse-dependency construction:
`revdeps_map.setdefault(dst, set()).add(src)` (sets are modelled as
first-occurrence-deduplicated lists; only emptiness is consumed). -/
def revStep (m : List (String × List String)) (e : String × String) :
    List (String × List String) :=
  match List.lookup e.2 m with
  | some s =>
    m.map (fun p => if p.1 = e.2 then (p.1, if e.1 ∈ s then s else s ++ [e.1]) else p)
  | none => m ++ [(e.2, [e.1])]

/-- The reverse-dependency map of `detect_orphans`: initialize every node
with an empty set, then for every edge `src -> dst` add `src` to `dst`'s
set. -/
def revdepsMap (g : Graph) : List (String × List String) :=
  g.edges.foldl revStep (g.nodeNames.map (fun n => (n, [])))

/-- `detect_orphans`, with the installed-name list (as returned by the
package database) passed in: keep each installed name whose
reverse-dependency set is absent or empty. -/
def detectOrphans (g : Graph) (installed : List String) : List String :=
  installed.filter (fun name =>
    match (revdepsMap g).lookup name with
    | some s => s.isEmpty
    | none => true)

/-! ### Rebuild impact (`mark_for_rebuild`)

`nx.has_path` and `nx.shortest_path_length` are breadth-first reachability
and distance; `has_path(G, n, n)` is true and the distance is `0` for every
node `n` of the graph. -/

/-- One BFS step: deduplicated unvisited successors of the frontier. -/
def bfsNext (g : Graph) (visited frontier : List String) : List String :=
  (frontier.flatMap (fun n => successors g n)).foldl
    (fun acc d => if d ∈ visited ∨ d ∈ acc then acc else acc ++ [d]) []

def bfsDistAux (g : Graph) (tgt : String) :
    Nat → List String → List String → Nat → Option Nat
  | 0, _, _, _ => none
  | _ + 1, _, [], _ => none
  | fuel + 1, visited, frontier, d =>
    if tgt ∈ frontier then some d
    else bfsDistAux g tgt fuel (visited ++ frontier) (bfsNext g (visited ++ frontier) frontier) (d + 1)

/-- `nx.shortest_path_length(g, src, tgt)`: `none` models the
`NetworkXNoPath`/`NodeNotFound` exceptions (the caller catches them and
uses distance `0`). -/
def shortestPathLength (g : Graph) (src tgt : String) : Option Nat :=
  if src ∈ g.nodeNames ∧ tgt ∈ g.nodeNames then
    bfsDistAux g tgt (g.nodes.length + 1) [] [src] 0
  else none

/-- `nx.has_path(g, src, tgt)` (true whenever `src = tgt` is a node). -/
def hasPath (g : Graph) (src tgt : String) : Bool :=
  (shortestPathLength g src tgt).isSome

/-- Stable descending insertion by key, modelling Python's stable
`sorted(..., reverse=True)`: among equal keys the original order is kept. -/
def insertByKeyDesc (key : String → Nat) (x : String) : List String → List String
  | [] => [x]
  | y :: ys => if key x ≤ key y then y :: insertByKeyDesc key x ys else x :: y :: ys

def sortByKeyDesc (key : String → Nat) (l : List String) : List String :=
  l.foldl (fun acc x => insertByKeyDesc key x acc) []

/-- `mark_for_rebuild(pkg)`: union of database reverse-dependents (names
cut at the first hyphen) and every graph node with a path to `pkg`,
sorted by shortest-path distance to `pkg` descending (distance `0` when
no path), ties keeping encounter order.  `dbRev` stands for the external
`db.sh revdeps` call. -/
def markForRebuild (g : Graph) (dbRev : String → List String) (pkg : String) : List String :=
  let parsed := (dbRev pkg).map (fun r => String.mk (cutBefore "-".data r.data))
  let fromGraph :=
    if pkg ∈ g.nodeNames then g.nodeNames.filter (fun n => hasPath g n pkg) else []
  let dependents := (fromGraph ++ parsed).foldl
    (fun acc d => if d ∈ acc then acc else acc ++ [d]) []
  sortByKeyDesc (fun d => (shortestPathLength g d pkg).getD 0) dependents

/-! ## Basic lemmas about the graph operations -/

theorem dictUpdate_nil (m : Attrs) : dictUpdate m [] = m := rfl

theorem nodeNames_addNode (g : Graph) (n : String) (a : Attrs) :
    (addNode g n a).nodeNames =
      if n ∈ g.nodeNames then g.nodeNames else g.nodeNames ++ [n] := by
  unfold addNode Graph.nodeNames
  by_cases h : n ∈ g.nodes.map Prod.fst
  · simp only [h, if_true, List.map_map]
    congr 1
    funext p
    by_cases hp : p.1 = n <;> simp [hp]
  · simp [h]

theorem edges_addNode (g : Graph) (n : String) (a : Attrs) :
    (addNode g n a).edges = g.edges := by
  unfold addNode; split <;> rfl

theorem mem_nodeNames_addNode (g : Graph) (n : String) (a : Attrs) (x : String) :
    x ∈ (addNode g n a).nodeNames ↔ x ∈ g.nodeNames ∨ x = n := by
  rw [nodeNames_addNode]
  by_cases h : n ∈ g.nodeNames
  · simp only [h, if_true]
    constructor
    · exact Or.inl
    · rintro (hx | rfl)
      · exact hx
      · exact h
  · simp [h]

theorem addNode_nil_of_mem (g : Graph) (n : String) (h : n ∈ g.nodeNames) :
    addNode g n [] = g := by
  have hmap : g.nodes.map (fun p => if p.1 = n then (p.1, dictUpdate p.2 []) else p)
      = g.nodes := by
    have hpt : ∀ p ∈ g.nodes,
        (if p.1 = n then (p.1, dictUpdate p.2 []) else p) = id p := by
      intro p _
      by_cases hp : p.1 = n
      · simp only [hp, if_true, dictUpdate_nil, id]
        rw [← hp]
      · simp [hp]
    rw [List.map_congr_left hpt, List.map_id]
  unfold addNode
  simp only [h, if_true, hmap]

theorem nodes_addEdgeRaw (g : Graph) (u v : String) :
    (addEdgeRaw g u v).nodes = g.nodes := by
  unfold addEdgeRaw; split <;> rfl

theorem nodeNames_addEdgeRaw (g : Graph) (u v : String) :
    (addEdgeRaw g u v).nodeNames = g.nodeNames := by
  show ((addEdgeRaw g u v).nodes.map Prod.fst) = _
  rw [nodes_addEdgeRaw]; rfl

theorem mem_edges_addEdgeRaw (g : Graph) (u v : String) (e : String × String) :
    e ∈ (addEdgeRaw g u v).edges ↔ e ∈ g.edges ∨ e = (u, v) := by
  unfold addEdgeRaw
  by_cases h : (u, v) ∈ g.edges
  · simp only [h, if_true]
    constructor
    · exact Or.inl
    · rintro (hx | rfl)
      · exact hx
      · exact h
  · simp [h]

theorem mem_edges_addEdge (g : Graph) (u v : String) (e : String × String) :
    e ∈ (addEdge g u v).edges ↔ e ∈ g.edges ∨ e = (u, v) := by
  unfold addEdge
  rw [mem_edges_addEdgeRaw, edges_addNode, edges_addNode]

theorem mem_nodeNames_addEdge (g : Graph) (u v : String) (x : String) :
    x ∈ (addEdge g u v).nodeNames ↔ x ∈ g.nodeNames ∨ x = u ∨ x = v := by
  unfold addEdge
  rw [nodeNames_addEdgeRaw, mem_nodeNames_addNode, mem_nodeNames_addNode]
  tauto

theorem nodes_addEdge_of_mem (g : Graph) (u v : String)
    (hu : u ∈ g.nodeNames) (hv : v ∈ g.nodeNames) :
    (addEdge g u v).nodes = g.nodes := by
  unfold addEdge
  rw [nodes_addEdgeRaw, addNode_nil_of_mem g u hu, addNode_nil_of_mem g v hv]

theorem nodeNames_setAttr (g : Graph) (n k : String) (v : AVal) :
    (setAttr g n k v).nodeNames = g.nodeNames := by
  unfold setAttr Graph.nodeNames
  simp only [List.map_map]
  congr 1
  funext p
  by_cases hp : p.1 = n <;> simp [hp]

theorem edges_setAttr (g : Graph) (n k : String) (v : AVal) :
    (setAttr g n k v).edges = g.edges := rfl

theorem WF_addNode (g : Graph) (n : String) (a : Attrs) (h : WFGraph g) :
    WFGraph (addNode g n a) := by
  obtain ⟨h1, h2, h3⟩ := h
  refine ⟨?_, ?_, ?_⟩
  · rw [nodeNames_addNode]
    by_cases hn : n ∈ g.nodeNames
    · simpa [hn] using h1
    · simp only [hn, if_false]
      simpa [List.nodup_append, hn] using h1
  · simpa [edges_addNode] using h2
  · intro e he
    rw [edges_addNode] at he
    have := h3 e he
    rw [mem_nodeNames_addNode, mem_nodeNames_addNode]
    exact ⟨Or.inl this.1, Or.inl this.2⟩

theorem WF_addEdgeRaw (g : Graph) (u v : String) (h : WFGraph g)
    (hu : u ∈ g.nodeNames) (hv : v ∈ g.nodeNames) : WFGraph (addEdgeRaw g u v) := by
  obtain ⟨w1, w2, w3⟩ := h
  unfold addEdgeRaw
  by_cases he : (u, v) ∈ g.edges
  · simpa [he] using ⟨w1, w2, w3⟩
  · simp only [he, if_false]
    refine ⟨w1, ?_, ?_⟩
    · simpa [List.nodup_append, he] using w2
    · intro e hme
      rcases List.mem_append.1 hme with hm | hm
      · exact w3 e hm
      · have : e = (u, v) := by simpa using hm
        subst this
        exact ⟨hu, hv⟩

theorem WF_addEdge (g : Graph) (u v : String) (h : WFGraph g) :
    WFGraph (addEdge g u v) := by
  unfold addEdge
  refine WF_addEdgeRaw _ u v (WF_addNode _ v [] (WF_addNode g u [] h)) ?_ ?_
  · rw [mem_nodeNames_addNode, mem_nodeNames_addNode]; tauto
  · rw [mem_nodeNames_addNode]; tauto

theorem WF_setAttr (g : Graph) (n k : String) (v : AVal) (h : WFGraph g) :
    WFGraph (setAttr g n k v) := by
  obtain ⟨h1, h2, h3⟩ := h
  refine ⟨?_, ?_, ?_⟩
  · simpa [nodeNames_setAttr] using h1
  · simpa [edges_setAttr] using h2
  · intro e he
    rw [edges_setAttr] at he
    simpa [nodeNames_setAttr] using h3 e he

theorem WF_empty : WFGraph emptyGraph := by
  refine ⟨?_, ?_, ?_⟩ <;> simp [emptyGraph, Graph.nodeNames]

theorem WF_foldl_addDeps (name : String) :
    ∀ (l : List String) (g : Graph), WFGraph g →
      WFGraph (l.foldl
        (fun gg d => if d = name then gg else addEdge (addNode gg d []) name d) g) := by
  intro l
  induction l with
  | nil => intro g hg; simpa using hg
  | cons d ds ih =>
    intro g hg
    simp only [List.foldl_cons]
    by_cases hd : d = name
    · simpa [hd] using ih g hg
    · simp only [hd, if_false]
      exact ih _ (WF_addEdge _ name d (WF_addNode g d [] hg))

theorem WF_addPackageFromMetafile (g : Graph) (m : Metafile) (g2 : Graph)
    (r : Option String) (h : WFGraph g)
    (hok : addPackageFromMetafile g m = .ok (g2, r)) : WFGraph g2 := by
  unfold addPackageFromMetafile at hok
  cases hname : m.name with
  | none =>
    rw [hname] at hok
    simp only [Except.ok.injEq, Prod.mk.injEq] at hok
    exact hok.1 ▸ h
  | some name =>
    rw [hname] at hok
    by_cases hemp : name = ""
    · simp only [hemp, if_true] at hok
      simp only [Except.ok.injEq, Prod.mk.injEq] at hok
      exact hok.1 ▸ h
    · simp only [hemp, if_false] at hok
      cases hbd : normList m.buildDepends with
      | error e => rw [hbd] at hok; cases hok
      | ok bd =>
        rw [hbd] at hok
        cases hrd : normList m.runtimeDepends with
        | error e => rw [hrd] at hok; cases hok
        | ok rd =>
          rw [hrd] at hok
          cases hop : normList m.buildOptional with
          | error e => rw [hop] at hok; cases hok
          | ok opt =>
            rw [hop] at hok
            simp only [Except.ok.injEq, Prod.mk.injEq] at hok
            have hg1 := WF_addNode g name
              [("version", ovAVal m.version), ("origin", .s m.origin),
               ("provides", .strs m.provides), ("optional", .strs opt)] h
            have hg2 := WF_foldl_addDeps name (dedupKeep (bd ++ rd)) _ hg1
            rcases hok with ⟨hg2eq, _⟩
            rw [← hg2eq]
            by_cases hoe : opt = []
            · simpa [hoe] using hg2
            · simp only [hoe, if_false]
              exact WF_setAttr _ name "optional" (.strs opt) hg2

theorem WF_buildGraph (ms : List Metafile) : WFGraph (buildGraph ms) := by
  unfold buildGraph
  have : ∀ (l : List Metafile) (g : Graph), WFGraph g →
      WFGraph (l.foldl (fun g m =>
        match addPackageFromMetafile g m with
        | .ok (g2, _) => g2
        | .error _ => g) g) := by
    intro l
    induction l with
    | nil => intro g hg; simpa using hg
    | cons m ms ih =>
      intro g hg
      simp only [List.foldl_cons]
      cases hm : addPackageFromMetafile g m with
      | ok p =>
        cases p with
        | mk g2 r => exact ih g2 (WF_addPackageFromMetafile g m g2 r hg hm)
      | error e => exact ih g hg
  exact this ms emptyGraph WF_empty

/-! ## Normalizer lemmas -/

theorem pyWords_nil_of_all_ws (s : List Char) (h : ∀ c ∈ s, isPyWs c = true) :
    pyWords s = [] := by
  induction s with
  | nil => rw [pyWords]
  | cons c rest ih =>
    rw [pyWords]
    simp only [h c (List.mem_cons_self c rest), if_true]
    exact ih (fun d hd => h d (List.mem_cons_of_mem c hd))

theorem pyWords_head_of_exists (s : List Char) (h : ∃ c ∈ s, isPyWs c = false) :
    ∃ tl, pyWords s =
      ((s.dropWhile isPyWs).takeWhile (fun c => !isPyWs c)) :: tl := by
  induction s with
  | nil => simp at h
  | cons c rest ih =>
    by_cases hc : isPyWs c = true
    · have hrest : ∃ d ∈ rest, isPyWs d = false := by
        obtain ⟨d, hd, hdw⟩ := h
        rcases List.mem_cons.1 hd with rfl | hd2
        · rw [hc] at hdw; cases hdw
        · exact ⟨d, hd2, hdw⟩
      obtain ⟨tl, htl⟩ := ih hrest
      refine ⟨tl, ?_⟩
      rw [pyWords]
      simp only [hc, if_true, List.dropWhile_cons, htl]
    · have hc' : isPyWs c = false := by simpa using hc
      refine ⟨pyWords (rest.dropWhile (fun d => !isPyWs d)), ?_⟩
      rw [pyWords]
      simp [hc', List.dropWhile_cons, List.takeWhile_cons]

theorem normStrTok_of_exists (s : String) (h : ∃ c ∈ s.data, isPyWs c = false) :
    normStrTok s = .ok (String.mk
      (stripOps ((s.data.dropWhile isPyWs).takeWhile (fun c => !isPyWs c)))) := by
  obtain ⟨tl, htl⟩ := pyWords_head_of_exists s.data h
  unfold normStrTok
  rw [htl]

theorem normStrTok_err_of_all_ws (s : String) (h : ∀ c ∈ s.data, isPyWs c = true) :
    normStrTok s = .error .indexError := by
  unfold normStrTok
  rw [pyWords_nil_of_all_ws s.data h]

theorem normStrTok_error_eq (s : String) (e : PyErr)
    (h : normStrTok s = .error e) : e = .indexError := by
  unfold normStrTok at h
  cases hw : pyWords s.data with
  | nil => rw [hw] at h; cases h; rfl
  | cons w tl => rw [hw] at h; cases h

theorem normList_error_eq (l : List DepEntry) (e : PyErr)
    (h : normList l = .error e) : e = .indexError := by
  induction l with
  | nil => cases h
  | cons entry rest ih =>
    cases entry with
    | tok s =>
      unfold normList at h
      cases hs : normStrTok s with
      | error e2 =>
        rw [hs] at h; cases h
        exact normStrTok_error_eq s e hs
      | ok w =>
        rw [hs] at h
        cases hr : normList rest with
        | error e2 => rw [hr] at h; cases h; exact ih hr
        | ok ws => rw [hr] at h; cases h
    | named s =>
      unfold normList at h
      cases hr : normList rest with
      | error e2 => rw [hr] at h; cases h; exact ih hr
      | ok ws => rw [hr] at h; cases h
    | other => unfold normList at h; exact ih h

theorem normList_error_of_ws_tok (l : List DepEntry) (s : String)
    (hmem : DepEntry.tok s ∈ l) (hws : ∀ c ∈ s.data, isPyWs c = true) :
    normList l = .error .indexError := by
  induction l with
  | nil => cases hmem
  | cons entry rest ih =>
    rcases List.mem_cons.1 hmem with heq | hmem2
    · subst heq
      unfold normList
      rw [normStrTok_err_of_all_ws s hws]
    · cases entry with
      | tok s0 =>
        unfold normList
        cases hs : normStrTok s0 with
        | error e => rw [normStrTok_error_eq s0 e hs]
        | ok w => rw [ih hmem2]
      | named s0 =>
        unfold normList
        rw [ih hmem2]
      | other =>
        unfold normList
        exact ih hmem2

theorem normList_named_cons (nm : String) (l : List DepEntry) (out : List String)
    (h : normList l = .ok out) : normList (.named nm :: l) = .ok (nm :: out) := by
  unfold normList
  rw [h]

/-! ## Orphan-detection lemmas -/

/-- The reverse set recorded for key `k`: empty when the key is absent. -/
def lkupD (m : List (String × List String)) (k : String) : List String :=
  (List.lookup k m).getD []

theorem lookup_cons_str (k k0 : String) (v0 : List String)
    (rest : List (String × List String)) :
    List.lookup k ((k0, v0) :: rest) = if k = k0 then some v0 else List.lookup k rest := by
  by_cases h : k = k0
  · simp [List.lookup, h]
  · have hb : (k == k0) = false := beq_eq_false_iff_ne.mpr h
    simp [List.lookup, hb, h]

theorem lookup_mapUpdate (m : List (String × List String)) (t : String)
    (nv : List String) (k : String) :
    List.lookup k (m.map (fun p => if p.1 = t then (p.1, nv) else p)) =
      if k = t then (List.lookup k m).map (fun _ => nv) else List.lookup k m := by
  induction m with
  | nil => simp [List.lookup]
  | cons p rest ih =>
    cases p with
    | mk k0 v0 =>
      by_cases h0t : k0 = t
      · subst h0t
        simp only [List.map_cons, if_true]
        rw [lookup_cons_str, lookup_cons_str]
        by_cases hk : k = k0
        · simp [hk]
        · simp only [hk, if_false]
          rw [ih]
          simp [hk]
      · simp only [List.map_cons, h0t, if_false]
        rw [lookup_cons_str, lookup_cons_str]
        by_cases hk : k = k0
        · have hkt : ¬ k = t := by rw [hk]; exact h0t
          simp [hk, hkt, h0t]
        · simp only [hk, if_false]
          exact ih

theorem lookup_append_strings (m1 m2 : List (String × List String)) (k : String) :
    List.lookup k (m1 ++ m2) =
      match List.lookup k m1 with
      | some v => some v
      | none => List.lookup k m2 := by
  induction m1 with
  | nil => simp [List.lookup]
  | cons p rest ih =>
    cases p with
    | mk k0 v0 =>
      by_cases hk : k = k0
      · subst hk
        simp [lookup_cons_str]
      · simp only [List.cons_append, lookup_cons_str, hk, if_false]
        exact ih

theorem lkupD_init (ns : List String) (k : String) :
    lkupD (ns.map (fun n => (n, []))) k = [] := by
  induction ns with
  | nil => simp [lkupD, List.lookup]
  | cons n rest ih =>
    by_cases hk : k = n
    · subst hk
      simp [lkupD, lookup_cons_str]
    · simpa [lkupD, lookup_cons_str, hk] using ih

theorem revStep_mem (m : List (String × List String)) (e : String × String)
    (k x : String) :
    x ∈ lkupD (revStep m e) k ↔ x ∈ lkupD m k ∨ (k = e.2 ∧ x = e.1) := by
  unfold revStep
  cases hl : List.lookup e.2 m with
  | some s =>
    unfold lkupD
    rw [lookup_mapUpdate]
    by_cases hk : k = e.2
    · subst hk
      rw [hl]
      simp only [if_pos rfl, Option.map_some, Option.getD_some]
      by_cases he : e.1 ∈ s
      · simp only [he, if_true, true_and]
        constructor
        · exact fun h => Or.inl h
        · rintro (h | rfl)
          · exact h
          · exact he
      · simp [he]
    · simp [hk]
  | none =>
    unfold lkupD
    rw [lookup_append_strings]
    by_cases hk : k = e.2
    · subst hk
      rw [hl]
      simp [List.lookup]
    · simp only [hk, false_and, or_false]
      cases h2 : List.lookup k m with
      | some v => simp
      | none =>
        have hk' : (k == e.2) = false := beq_eq_false_iff_ne.mpr hk
        simp [List.lookup, hk']

theorem revfold_mem (es : List (String × String)) :
    ∀ (m : List (String × List String)) (k x : String),
      x ∈ lkupD (es.foldl revStep m) k ↔ x ∈ lkupD m k ∨ (x, k) ∈ es := by
  induction es with
  | nil => intro m k x; simp
  | cons e rest ih =>
    intro m k x
    simp only [List.foldl_cons]
    rw [ih, revStep_mem]
    constructor
    · rintro ((h | ⟨rfl, rfl⟩) | h)
      · exact Or.inl h
      · exact Or.inr (List.mem_cons_self _ _)
      · exact Or.inr (List.mem_cons_of_mem _ h)
    · rintro (h | h)
      · exact Or.inl (Or.inl h)
      · rcases List.mem_cons.1 h with heq | h2
        · exact Or.inl (Or.inr ⟨by rw [← heq], by rw [← heq]⟩)
        · exact Or.inr h2

theorem revdepsMap_mem (g : Graph) (k x : String) :
    x ∈ lkupD (revdepsMap g) k ↔ (x, k) ∈ g.edges := by
  unfold revdepsMap
  rw [revfold_mem, lkupD_init]
  simp

/-- The normalization rule exactly as the specification words it: "take
the substring before the first whitespace, then strip any trailing
comparison operator and everything after it".  Stated from the spec for
comparison with `normStrTok`; the two differ on tokens with leading
whitespace. -/
def specNormalizeTok (s : String) : String :=
  String.mk (stripOps (s.data.takeWhile (fun c => !isPyWs c)))

deriving instance DecidableEq for Except

unseal pyWords dfs mergeLoop kahnAux

/-! ## Reachability -/

/-- A non-empty directed path: `b` is reachable from `a` along at least
one dependency edge. -/
def ReachPlus (g : Graph) (a b : String) : Prop :=
  ∃ l : List String, List.Chain (Edge g) a l ∧ l.getLast? = some b

/-- Reflexive reachability. -/
def ReachStar (g : Graph) (a b : String) : Prop := a = b ∨ ReachPlus g a b

/-- No node lies on a directed cycle. -/
def Acyclic (g : Graph) : Prop := ∀ n, ¬ ReachPlus g n n

theorem reachPlus_of_edge (g : Graph) (a b : String) (h : Edge g a b) :
    ReachPlus g a b :=
  ⟨[b], List.chain_singleton.2 h, rfl⟩

theorem chain_snoc (R : String → String → Prop) :
    ∀ (l : List String) (a b c : String), List.Chain R a l → l.getLast? = some b →
      R b c → List.Chain R a (l ++ [c])
  | [], _, _, _, _, hl, _ => by cases hl
  | [x], a, b, c, hch, hl, hbc => by
    have hx : x = b := by simpa using hl
    subst hx
    rcases List.chain_cons.1 hch with ⟨hax, _⟩
    exact List.chain_cons.2 ⟨hax, List.chain_singleton.2 hbc⟩
  | x :: y :: l, a, b, c, hch, hl, hbc => by
    rcases List.chain_cons.1 hch with ⟨hax, hrest⟩
    have hl2 : (y :: l).getLast? = some b := by
      rw [← hl]; rfl
    exact List.chain_cons.2 ⟨hax, chain_snoc R (y :: l) x b c hrest hl2 hbc⟩

theorem reachStar_edge (g : Graph) (a b c : String)
    (h : ReachStar g a b) (he : Edge g b c) : ReachPlus g a c := by
  rcases h with rfl | ⟨l, hch, hl⟩
  · exact reachPlus_of_edge g a c he
  · exact ⟨l ++ [c], chain_snoc (Edge g) l a b c hch hl he, by simp⟩

theorem edge_reachStar (g : Graph) (a b c : String)
    (he : Edge g a b) (h : ReachStar g b c) : ReachPlus g a c := by
  rcases h with rfl | ⟨l, hch, hl⟩
  · exact reachPlus_of_edge g a b he
  · refine ⟨b :: l, List.chain_cons.2 ⟨he, hch⟩, ?_⟩
    cases l with
    | nil => cases hl
    | cons x t => rw [← hl]; rfl

theorem reachPlus_last_edge (g : Graph) :
    ∀ (l : List String) (a b : String), List.Chain (Edge g) a l →
      l.getLast? = some b → ∃ c, ReachStar g a c ∧ Edge g c b
  | [], _, _, _, hl => by cases hl
  | [x], a, b, hch, hl => by
    have hx : x = b := by simpa using hl
    subst hx
    exact ⟨a, Or.inl rfl, (List.chain_singleton.1 hch)⟩
  | x :: y :: l, a, b, hch, hl => by
    rcases List.chain_cons.1 hch with ⟨hax, hrest⟩
    have hl2 : (y :: l).getLast? = some b := by rw [← hl]; rfl
    obtain ⟨c, hstar, hcb⟩ := reachPlus_last_edge g (y :: l) x b hrest hl2
    refine ⟨c, ?_, hcb⟩
    rcases hstar with rfl | hplus
    · exact Or.inr (reachPlus_of_edge g a _ hax)
    · exact Or.inr (edge_reachStar g a x c hax (Or.inr hplus))

theorem reachPlus_first_edge (g : Graph) (a b : String) (h : ReachPlus g a b) :
    ∃ c, Edge g a c ∧ ReachStar g c b := by
  obtain ⟨l, hch, hl⟩ := h
  cases l with
  | nil => cases hl
  | cons x t =>
    rcases List.chain_cons.1 hch with ⟨hax, hrest⟩
    cases t with
    | nil =>
      have hx : x = b := by simpa using hl
      subst hx
      exact ⟨x, hax, Or.inl rfl⟩
    | cons y t2 =>
      refine ⟨x, hax, Or.inr ⟨y :: t2, hrest, ?_⟩⟩
      rw [← hl]; rfl

theorem chain_append_of_last (R : String → String → Prop) :
    ∀ (l₁ : List String) (a b : String) (l₂ : List String), List.Chain R a l₁ →
      l₁.getLast? = some b → List.Chain R b l₂ → List.Chain R a (l₁ ++ l₂)
  | [], _, _, _, _, hl, _ => by cases hl
  | [x], a, b, l₂, hch, hl, h2 => by
    have hx : x = b := by simpa using hl
    subst hx
    exact List.chain_cons.2 ⟨List.chain_singleton.1 hch, h2⟩
  | x :: y :: t, a, b, l₂, hch, hl, h2 => by
    rcases List.chain_cons.1 hch with ⟨hax, hrest⟩
    have hl2 : (y :: t).getLast? = some b := by rw [← hl]; rfl
    exact List.chain_cons.2 ⟨hax, chain_append_of_last R (y :: t) x b l₂ hrest hl2 h2⟩

theorem reachPlus_trans (g : Graph) (a b c : String)
    (h1 : ReachPlus g a b) (h2 : ReachPlus g b c) : ReachPlus g a c := by
  obtain ⟨l₁, hch1, hl1⟩ := h1
  obtain ⟨l₂, hch2, hl2⟩ := h2
  refine ⟨l₁ ++ l₂, chain_append_of_last (Edge g) l₁ a b l₂ hch1 hl1 hch2, ?_⟩
  have hne : l₂ ≠ [] := by
    intro hc; rw [hc] at hl2; cases hl2
  rw [List.getLast?_append_of_ne_nil l₁ hne]
  exact hl2

theorem reachStar_trans (g : Graph) (a b c : String)
    (h1 : ReachStar g a b) (h2 : ReachStar g b c) : ReachStar g a c := by
  rcases h1 with rfl | hp1
  · exact h2
  · rcases h2 with rfl | hp2
    · exact Or.inr hp1
    · exact Or.inr (reachPlus_trans g a b c hp1 hp2)

theorem reachPlus_mono (g1 g2 : Graph)
    (hsub : ∀ u v, Edge g1 u v → Edge g2 u v) (a b : String)
    (h : ReachPlus g1 a b) : ReachPlus g2 a b := by
  obtain ⟨l, hch, hl⟩ := h
  exact ⟨l, List.Chain.imp (fun x y => hsub x y) hch, hl⟩

theorem reachPlus_mem_names (g : Graph) (a b : String) (hwf : WFGraph g)
    (h : ReachPlus g a b) : a ∈ g.nodeNames ∧ b ∈ g.nodeNames := by
  obtain ⟨c, hac, _⟩ := reachPlus_first_edge g a b h
  obtain ⟨d, _, hdb⟩ := reachPlus_last_edge g h.choose a b h.choose_spec.1 h.choose_spec.2
  exact ⟨(hwf.2.2 _ hac).1, (hwf.2.2 _ hdb).2⟩

/-! ## Simple cycles versus directed cycles -/

theorem reachPlus_self_of_simpleCycle (g : Graph) (c : List String)
    (h : IsSimpleCycle g c) : ∃ n, n ∈ c ∧ ReachPlus g n n := by
  obtain ⟨hne, _, hch, hclose⟩ := h
  cases c with
  | nil => exact absurd rfl hne
  | cons h0 t =>
    refine ⟨h0, List.mem_cons_self _ _, ?_⟩
    cases t with
    | nil =>
      have hedge : Edge g h0 h0 := hclose h0 rfl h0 rfl
      exact reachPlus_of_edge g h0 h0 hedge
    | cons y t2 =>
      have hchain : List.Chain (Edge g) h0 (y :: t2) := hch
      cases hb : (y :: t2).getLast? with
      | none => cases hb
      | some b =>
        have hlast : (h0 :: y :: t2).getLast? = some b := by
          rw [← hb]; rfl
        have hedge : Edge g b h0 := hclose b hlast h0 rfl
        refine ⟨(y :: t2) ++ [h0],
          chain_snoc (Edge g) (y :: t2) h0 b h0 hchain hb hedge, ?_⟩
        rw [List.getLast?_append_of_ne_nil _ (by simp)]
        rfl

theorem not_nodup_split {α : Type} (l : List α) (h : ¬ l.Nodup) :
    ∃ (d : α) (l₁ l₂ l₃ : List α), l = l₁ ++ d :: l₂ ++ d :: l₃ := by
  induction l with
  | nil => simp at h
  | cons a t ih =>
    by_cases ha : a ∈ t
    · obtain ⟨s1, s2, hs⟩ := List.append_of_mem ha
      exact ⟨a, [], s1, s2, by simp [hs]⟩
    · have ht : ¬ t.Nodup := by
        intro hnd; exact h (List.nodup_cons.2 ⟨ha, hnd⟩)
      obtain ⟨d, l₁, l₂, l₃, hd⟩ := ih ht
      exact ⟨d, a :: l₁, l₂, l₃, by simp [hd]⟩

theorem cycle_extract_aux (g : Graph) :
    ∀ (k : Nat) (n : String) (l : List String), l.length ≤ k →
      List.Chain (Edge g) n l → l.getLast? = some n →
      ∃ c, IsSimpleCycle g c := by
  intro k
  induction k with
  | zero =>
    intro n l hlen hch hl
    have : l = [] := List.length_eq_zero.1 (Nat.le_zero.1 hlen)
    subst this
    cases hl
  | succ k ih =>
    intro n l hlen hch hl
    obtain ⟨_, hlast⟩ := List.mem_getLast?_eq_getLast hl
    obtain ⟨l', rfl⟩ : ∃ l', l = l' ++ [n] := by
      refine ⟨l.dropLast, ?_⟩
      conv_lhs => rw [← List.dropLast_append_getLast (l := l) (by rintro rfl; cases hl)]
      rw [← hlast]
    have hw : List.Chain' (Edge g) ((n :: l') ++ [n]) := by
      show List.Chain (Edge g) n (l' ++ [n])
      exact hch
    by_cases hnd : (n :: l').Nodup
    · refine ⟨n :: l', by simp, hnd, (List.chain'_append.1 hw).1, ?_⟩
      intro x hx y hy
      have hyn : n = y := by simpa using hy
      subst hyn
      exact (List.chain'_append.1 hw).2.2 x hx n rfl
    · obtain ⟨d, l₁, l₂, l₃, hsplit⟩ := not_nodup_split (n :: l') hnd
      have hw2 : List.Chain' (Edge g) ((d :: l₂ ++ [d]) ++ (l₃ ++ [n])) := by
        have heq : (n :: l') ++ [n] = l₁ ++ ((d :: l₂ ++ [d]) ++ (l₃ ++ [n])) := by
          rw [hsplit]; simp
        rw [heq] at hw
        exact (List.chain'_append.1 hw).2.1
      have hw3 : List.Chain' (Edge g) (d :: (l₂ ++ [d])) := by
        have heq : (d :: l₂ ++ [d]) ++ (l₃ ++ [n]) = (d :: (l₂ ++ [d])) ++ (l₃ ++ [n]) := by
          simp
        rw [heq] at hw2
        exact (List.chain'_append.1 hw2).1
      have hlen2 : (l₂ ++ [d]).length ≤ k := by
        have h1 : (n :: l').length = l₁.length + l₂.length + l₃.length + 2 := by
          rw [hsplit]; simp; omega
        have h2 : (l' ++ [n]).length ≤ k + 1 := hlen
        simp only [List.length_append, List.length_cons, List.length_singleton] at h1 h2 ⊢
        omega
      exact ih d (l₂ ++ [d]) hlen2 hw3 (by simp)

theorem exists_simpleCycle_of_cycle (g : Graph) (n : String)
    (h : ReachPlus g n n) : ∃ c, IsSimpleCycle g c := by
  obtain ⟨l, hch, hl⟩ := h
  exact cycle_extract_aux g l.length n l (Nat.le_refl _) hch hl

/-! ## Rotations of simple cycles and the cycle enumeration -/

theorem simpleCycle_rotate_one (g : Graph) (a : String) (t : List String)
    (h : IsSimpleCycle g (a :: t)) : IsSimpleCycle g (t ++ [a]) := by
  obtain ⟨_, hnd, hch, hclose⟩ := h
  refine ⟨by simp, ((List.perm_append_singleton a t).nodup_iff).2 hnd, ?_, ?_⟩
  · apply List.chain'_append.2
    refine ⟨hch.tail, List.chain'_singleton a, ?_⟩
    intro x hx y hy
    have hy2 : a = y := by simpa using hy
    subst hy2
    exact hclose x (List.mem_getLast?_cons hx) _ rfl
  · intro x hx y hy
    have hx2 : a = x := by
      rw [List.getLast?_append_of_ne_nil _ (by simp)] at hx
      simpa using hx
    subst hx2
    cases t with
    | nil =>
      have hy2 : a = y := by simpa using hy
      subst hy2
      exact hclose a rfl a rfl
    | cons z t2 =>
      have hy2 : z = y := by
        rw [List.head?_append_of_ne_nil _ (by simp)] at hy
        simpa using hy
      subst hy2
      exact (List.chain'_cons.1 hch).1

theorem simpleCycle_rotate (g : Graph) (n : Nat) :
    ∀ (c : List String), IsSimpleCycle g c → IsSimpleCycle g (c.rotate n) := by
  induction n with
  | zero => intro c h; simpa [List.rotate_zero] using h
  | succ k ih =>
    intro c h
    cases c with
    | nil => exact absurd rfl h.1
    | cons a t =>
      rw [List.rotate_cons_succ]
      exact ih (t ++ [a]) (simpleCycle_rotate_one g a t h)

theorem simpleCycle_head_mem_names (g : Graph) (hwf : WFGraph g)
    (a : String) (t : List String) (h : IsSimpleCycle g (a :: t)) :
    a ∈ g.nodeNames := by
  cases t with
  | nil => exact (hwf.2.2 _ (h.2.2.2 a rfl a rfl)).1
  | cons z t2 => exact (hwf.2.2 _ (List.chain'_cons.1 h.2.2.1).1).1

theorem head_rotate_indexOf (c : List String) (x : String) (hx : x ∈ c) :
    (c.rotate (c.indexOf x)).head? = some x := by
  have hlen : 0 < c.length := List.length_pos.2 (List.ne_nil_of_mem hx)
  have hlt : c.indexOf x < c.length := List.indexOf_lt_length.2 hx
  have hrlen : 0 < (c.rotate (c.indexOf x)).length := by
    rw [List.length_rotate]; exact hlen
  have hget := List.get_rotate c (c.indexOf x) ⟨0, hrlen⟩
  have hmod : (0 + c.indexOf x) % c.length = c.indexOf x := by
    rw [Nat.zero_add]
    exact Nat.mod_eq_of_lt hlt
  cases hc : c.rotate (c.indexOf x) with
  | nil => rw [hc] at hrlen; cases hrlen
  | cons y t =>
    have hy : y = x := by
      have h0 : (c.rotate (c.indexOf x)).get ⟨0, hrlen⟩ = y := by
        simp [hc]
      rw [hget] at h0
      rw [← h0]
      have : c.get ⟨(0 + c.indexOf x) % c.length, by rw [hmod]; exact hlt⟩ =
          c.get ⟨c.indexOf x, hlt⟩ := by
        congr 1
        exact Fin.ext hmod
      rw [this]
      rw [List.get_eq_getElem]
      exact List.getElem_indexOf hlt
    rw [hy]
    rfl

theorem simpleCycle_mem_names (g : Graph) (hwf : WFGraph g) (c : List String)
    (h : IsSimpleCycle g c) : ∀ x ∈ c, x ∈ g.nodeNames := by
  intro x hx
  have hc' := simpleCycle_rotate g (c.indexOf x) c h
  have hhead := head_rotate_indexOf c x hx
  cases hc : c.rotate (c.indexOf x) with
  | nil => rw [hc] at hhead; cases hhead
  | cons y t =>
    rw [hc] at hhead hc'
    have hy : y = x := by simpa using hhead
    subst hy
    exact simpleCycle_head_mem_names g hwf y t hc'

theorem mem_insertsB (a : String) :
    ∀ (l s : List String), s ∈ insertsB a l ↔
      ∃ l₁ l₂, l = l₁ ++ l₂ ∧ s = l₁ ++ a :: l₂ := by
  intro l
  induction l with
  | nil =>
    intro s
    simp only [insertsB, List.mem_singleton]
    constructor
    · rintro rfl
      exact ⟨[], [], rfl, rfl⟩
    · rintro ⟨l₁, l₂, h1, rfl⟩
      have h2 := List.append_eq_nil.1 h1.symm
      rw [h2.1, h2.2]
      rfl
  | cons b l ih =>
    intro s
    simp only [insertsB, List.mem_cons, List.mem_map]
    constructor
    · rintro (rfl | ⟨r, hr, rfl⟩)
      · exact ⟨[], b :: l, rfl, rfl⟩
      · obtain ⟨l₁, l₂, rfl, rfl⟩ := (ih r).1 hr
        exact ⟨b :: l₁, l₂, rfl, rfl⟩
    · rintro ⟨l₁, l₂, h1, rfl⟩
      cases l₁ with
      | nil =>
        left
        simp only [List.nil_append] at h1 ⊢
        rw [← h1]
      | cons c l₁ =>
        right
        injection h1 with hc h3
        refine ⟨l₁ ++ a :: l₂, (ih _).2 ⟨l₁, l₂, h3, rfl⟩, ?_⟩
        rw [hc]
        rfl

theorem mem_permsB : ∀ (l s : List String), s ∈ permsB l ↔ s.Perm l := by
  intro l
  induction l with
  | nil =>
    intro s
    simp only [permsB, List.mem_singleton]
    exact ⟨fun h => h ▸ List.Perm.refl [], fun h => List.perm_nil.1 h⟩
  | cons a l ih =>
    intro s
    simp only [permsB, List.mem_flatMap]
    constructor
    · rintro ⟨r, hr, hs⟩
      obtain ⟨l₁, l₂, rfl, rfl⟩ := (mem_insertsB a r _).1 hs
      exact List.Perm.trans List.perm_middle (((ih _).1 hr).cons a)
    · intro hs
      have ha : a ∈ s := hs.symm.subset (List.mem_cons_self _ _)
      obtain ⟨l₁, l₂, rfl⟩ := List.append_of_mem ha
      have h2 : (a :: (l₁ ++ l₂)).Perm (a :: l) :=
        List.Perm.trans List.perm_middle.symm hs
      exact ⟨l₁ ++ l₂, (ih _).2 h2.cons_inv, (mem_insertsB a _ _).2 ⟨l₁, l₂, rfl, rfl⟩⟩

theorem nodup_insertsB (a : String) :
    ∀ (l : List String), a ∉ l → (insertsB a l).Nodup := by
  intro l
  induction l with
  | nil => intro _; simp [insertsB]
  | cons b l ih =>
    intro ha
    have hab : a ≠ b := fun h => ha (h ▸ List.mem_cons_self _ _)
    have hal : a ∉ l := fun h => ha (List.mem_cons_of_mem _ h)
    rw [insertsB, List.nodup_cons]
    constructor
    · intro hc
      obtain ⟨r, _, hr⟩ := List.mem_map.1 hc
      injection hr with h1 _
      exact hab h1.symm
    · refine List.Nodup.map ?_ (ih hal)
      intro x y hxy
      exact (List.cons.inj hxy).2

theorem append_eq_append_of_not_mem (a : String) :
    ∀ (l₁ m₁ l₂ m₂ : List String), a ∉ l₁ → a ∉ m₁ →
      l₁ ++ a :: l₂ = m₁ ++ a :: m₂ → l₁ = m₁ ∧ l₂ = m₂ := by
  intro l₁
  induction l₁ with
  | nil =>
    intro m₁ l₂ m₂ _ hm h
    cases m₁ with
    | nil =>
      injection h with _ h2
      exact ⟨rfl, h2⟩
    | cons c m₁ =>
      injection h with h1 _
      exact absurd (by rw [h1]; exact List.mem_cons_self _ _) hm
  | cons c l₁ ih =>
    intro m₁ l₂ m₂ hl hm h
    cases m₁ with
    | nil =>
      injection h with h1 _
      exact absurd (by rw [← h1]; exact List.mem_cons_self _ _) hl
    | cons d m₁ =>
      injection h with h1 h2
      obtain ⟨h3, h4⟩ := ih m₁ l₂ m₂ (fun hx => hl (List.mem_cons_of_mem _ hx))
        (fun hx => hm (List.mem_cons_of_mem _ hx)) h2
      exact ⟨by rw [h1, h3], h4⟩

theorem nodup_permsB : ∀ (l : List String), l.Nodup → (permsB l).Nodup := by
  intro l
  induction l with
  | nil => intro _; simp [permsB]
  | cons a l ih =>
    intro hnd
    obtain ⟨ha, hl⟩ := List.nodup_cons.1 hnd
    rw [permsB, List.nodup_flatMap]
    constructor
    · intro r hr
      have hrp : r.Perm l := (mem_permsB l r).1 hr
      exact nodup_insertsB a r (fun hc => ha (hrp.subset hc))
    · refine (ih hl).imp_of_mem ?_
      intro r₁ r₂ h1 h2 hne
      intro s hs1 hs2
      obtain ⟨l₁, l₂, hr1, hs1e⟩ := (mem_insertsB a r₁ _).1 hs1
      obtain ⟨m₁, m₂, hr2, hs2e⟩ := (mem_insertsB a r₂ _).1 hs2
      have har1 : a ∉ r₁ := fun hc => ha (((mem_permsB l r₁).1 h1).subset hc)
      have har2 : a ∉ r₂ := fun hc => ha (((mem_permsB l r₂).1 h2).subset hc)
      have hal1 : a ∉ l₁ := fun hc => har1 (hr1 ▸ List.mem_append.2 (Or.inl hc))
      have ham1 : a ∉ m₁ := fun hc => har2 (hr2 ▸ List.mem_append.2 (Or.inl hc))
      have heq : l₁ ++ a :: l₂ = m₁ ++ a :: m₂ := by rw [← hs1e, ← hs2e]
      obtain ⟨hpre, hsuf⟩ := append_eq_append_of_not_mem a l₁ m₁ l₂ m₂ hal1 ham1 heq
      exact hne (by rw [hr1, hr2, hpre, hsuf])

theorem mem_enum_of_nodup (base s : List String) (hb : base.Nodup) (hs : s.Nodup)
    (hsub : ∀ x ∈ s, x ∈ base) :
    s ∈ base.sublists.flatMap permsB := by
  rw [List.mem_flatMap]
  refine ⟨base.filter (fun x => decide (x ∈ s)), ?_, ?_⟩
  · rw [List.mem_sublists]
    exact List.filter_sublist base
  · rw [mem_permsB]
    refine (List.perm_ext_iff_of_nodup hs (hb.filter _)).2 ?_
    intro a
    simp only [List.mem_filter, decide_eq_true_eq]
    exact ⟨fun haz => ⟨hsub a haz, haz⟩, fun h2 => h2.2⟩

theorem mem_simpleCycles (g : Graph) (c : List String) :
    c ∈ simpleCycles g ↔
      c ∈ g.nodeNames.sublists.flatMap permsB ∧
      IsSimpleCycle g c ∧ cycleCanon g c = true := by
  unfold simpleCycles
  rw [List.mem_filter]
  simp only [Bool.and_eq_true, decide_eq_true_eq, and_assoc]

theorem simpleCycles_complete (g : Graph) (hwf : WFGraph g) (c : List String)
    (h : IsSimpleCycle g c) :
    ∃ c', c' ∈ simpleCycles g ∧ List.IsRotated c' c := by
  cases hm : c.argmin (fun x => g.nodeNames.indexOf x) with
  | none =>
    rw [List.argmin_eq_none] at hm
    exact absurd hm h.1
  | some m =>
    have hmmem : m ∈ c := List.argmin_mem hm
    have hmin : ∀ a ∈ c, g.nodeNames.indexOf m ≤ g.nodeNames.indexOf a :=
      fun a ha => List.le_of_mem_argmin ha hm
    have hc' : IsSimpleCycle g (c.rotate (c.indexOf m)) :=
      simpleCycle_rotate g (c.indexOf m) c h
    have hhead := head_rotate_indexOf c m hmmem
    refine ⟨c.rotate (c.indexOf m), ?_, List.IsRotated.symm ⟨c.indexOf m, rfl⟩⟩
    rw [mem_simpleCycles]
    refine ⟨?_, hc', ?_⟩
    · exact mem_enum_of_nodup g.nodeNames _ hwf.1 hc'.2.1
        (simpleCycle_mem_names g hwf _ hc')
    · unfold cycleCanon
      cases hc : c.rotate (c.indexOf m) with
      | nil => rw [hc] at hhead; cases hhead
      | cons y t =>
        rw [hc] at hhead
        have hy : y = m := by simpa using hhead
        subst hy
        rw [List.all_eq_true]
        intro x hxmem
        have hxc : x ∈ c := by
          have := List.mem_rotate.1 (hc ▸ hxmem)
          exact this
        simpa using hmin x hxc

theorem simpleCycles_sound (g : Graph) (c : List String)
    (h : c ∈ simpleCycles g) : IsSimpleCycle g c :=
  ((mem_simpleCycles g c).1 h).2.1

theorem simpleCycles_unique (g : Graph) (hwf : WFGraph g) (c₁ c₂ : List String)
    (h1 : c₁ ∈ simpleCycles g) (h2 : c₂ ∈ simpleCycles g)
    (hrot : List.IsRotated c₁ c₂) : c₁ = c₂ := by
  obtain ⟨henum1, hsc1, hcanon1⟩ := (mem_simpleCycles g c₁).1 h1
  obtain ⟨henum2, hsc2, hcanon2⟩ := (mem_simpleCycles g c₂).1 h2
  obtain ⟨k, hk⟩ := hrot
  cases c₁ with
  | nil => exact absurd rfl hsc1.1
  | cons a₁ t₁ =>
    cases c₂ with
    | nil => exact absurd rfl hsc2.1
    | cons a₂ t₂ =>
      have hmem12 : ∀ x, x ∈ a₁ :: t₁ ↔ x ∈ a₂ :: t₂ := by
        intro x
        rw [← hk]
        exact List.mem_rotate.symm
      have hmin1 : ∀ x ∈ a₁ :: t₁, g.nodeNames.indexOf a₁ ≤ g.nodeNames.indexOf x := by
        unfold cycleCanon at hcanon1
        rw [List.all_eq_true] at hcanon1
        intro x hx
        simpa using hcanon1 x hx
      have hmin2 : ∀ x ∈ a₂ :: t₂, g.nodeNames.indexOf a₂ ≤ g.nodeNames.indexOf x := by
        unfold cycleCanon at hcanon2
        rw [List.all_eq_true] at hcanon2
        intro x hx
        simpa using hcanon2 x hx
      have ha12 : a₁ = a₂ := by
        have hle1 : g.nodeNames.indexOf a₁ ≤ g.nodeNames.indexOf a₂ :=
          hmin1 a₂ ((hmem12 a₂).2 (List.mem_cons_self _ _))
        have hle2 : g.nodeNames.indexOf a₂ ≤ g.nodeNames.indexOf a₁ :=
          hmin2 a₁ ((hmem12 a₁).1 (List.mem_cons_self _ _))
        have heq : g.nodeNames.indexOf a₁ = g.nodeNames.indexOf a₂ :=
          Nat.le_antisymm hle1 hle2
        have hn1 : a₁ ∈ g.nodeNames :=
          simpleCycle_mem_names g hwf _ hsc1 a₁ (List.mem_cons_self _ _)
        have hn2 : a₂ ∈ g.nodeNames :=
          simpleCycle_mem_names g hwf _ hsc2 a₂ (List.mem_cons_self _ _)
        exact (List.indexOf_inj hn1 hn2).1 heq
      -- equal heads force the rotation to be trivial
      have hlen : 0 < (a₁ :: t₁).length := by simp
      have hrlen : 0 < ((a₁ :: t₁).rotate k).length := by
        rw [List.length_rotate]; exact hlen
      have hget := List.get_rotate (a₁ :: t₁) k ⟨0, hrlen⟩
      have hlt : (0 + k) % (a₁ :: t₁).length < (a₁ :: t₁).length :=
        Nat.mod_lt _ hlen
      have hhead2 : ((a₁ :: t₁).rotate k).get ⟨0, hrlen⟩ = a₂ := by
        have h7 : ∀ (l : List String) (h0 : 0 < l.length), l = a₂ :: t₂ →
            l.get ⟨0, h0⟩ = a₂ := by
          intro l h0 hl
          subst hl
          rfl
        exact h7 _ hrlen hk
      have hgets : (a₁ :: t₁).get ⟨(0 + k) % (a₁ :: t₁).length, hlt⟩ =
          (a₁ :: t₁).get ⟨0, hlen⟩ := by
        rw [← hget, hhead2, ← ha12]
        rfl
      have hfin := hsc1.2.1.get_inj_iff.1 hgets
      have hkz : (0 + k) % (a₁ :: t₁).length = 0 := Fin.ext_iff.1 hfin
      have hkz2 : k % (a₁ :: t₁).length = 0 := by
        rw [Nat.zero_add] at hkz
        exact hkz
      rw [← hk, ← List.rotate_mod, hkz2, List.rotate_zero]

theorem sublist_eq_of_perm_of_nodup {α : Type} [DecidableEq α] :
    ∀ (base t₁ t₂ : List α), t₁.Sublist base → t₂.Sublist base → base.Nodup →
      t₁.Perm t₂ → t₁ = t₂ := by
  intro base
  induction base with
  | nil =>
    intro t₁ t₂ h1 h2 _ _
    rw [List.sublist_nil.1 h1, List.sublist_nil.1 h2]
  | cons b bs ih =>
    intro t₁ t₂ h1 h2 hnd hperm
    rcases List.sublist_cons_iff.1 h1 with h1' | ⟨r₁, rfl, hr1⟩
    · rcases List.sublist_cons_iff.1 h2 with h2' | ⟨r₂, rfl, hr2⟩
      · exact ih t₁ t₂ h1' h2' (List.nodup_cons.1 hnd).2 hperm
      · exfalso
        have hbmem : b ∈ t₁ := hperm.symm.subset (List.mem_cons_self _ _)
        exact (List.nodup_cons.1 hnd).1 (h1'.subset hbmem)
    · rcases List.sublist_cons_iff.1 h2 with h2' | ⟨r₂, rfl, hr2⟩
      · exfalso
        have hbmem : b ∈ t₂ := hperm.subset (List.mem_cons_self _ _)
        exact (List.nodup_cons.1 hnd).1 (h2'.subset hbmem)
      · have := ih r₁ r₂ hr1 hr2 (List.nodup_cons.1 hnd).2 hperm.cons_inv
        rw [this]

theorem enum_nodup (base : List String) (hb : base.Nodup) :
    (base.sublists.flatMap permsB).Nodup := by
  rw [List.nodup_flatMap]
  constructor
  · intro t ht
    exact nodup_permsB t (List.Nodup.sublist (List.mem_sublists.1 ht) hb)
  · have hpw : base.sublists.Pairwise (· ≠ ·) := List.nodup_sublists.2 hb
    refine hpw.imp_of_mem ?_
    intro t₁ t₂ h1 h2 hne
    intro s hs1 hs2
    have hp1 : s.Perm t₁ := (mem_permsB t₁ s).1 hs1
    have hp2 : s.Perm t₂ := (mem_permsB t₂ s).1 hs2
    exact hne (sublist_eq_of_perm_of_nodup base t₁ t₂
      (List.mem_sublists.1 h1) (List.mem_sublists.1 h2) hb (hp1.symm.trans hp2))

theorem simpleCycles_nodup (g : Graph) (hwf : WFGraph g) :
    (simpleCycles g).Nodup :=
  (enum_nodup g.nodeNames hwf.1).filter _

theorem acyclic_iff_simpleCycles_nil (g : Graph) (hwf : WFGraph g) :
    Acyclic g ↔ simpleCycles g = [] := by
  constructor
  · intro hacy
    rw [List.eq_nil_iff_forall_not_mem]
    intro c hc
    obtain ⟨n, _, hrp⟩ := reachPlus_self_of_simpleCycle g c (simpleCycles_sound g c hc)
    exact hacy n hrp
  · intro hnil n hrp
    obtain ⟨c, hc⟩ := exists_simpleCycle_of_cycle g n hrp
    obtain ⟨c', hc', _⟩ := simpleCycles_complete g hwf c hc
    rw [hnil] at hc'
    cases hc'

/-! ## Properties of the topological sort -/

theorem perm_filter_partition (l : List String) (p : String → Bool) :
    (l.filter p ++ l.filter (fun x => !(p x))).Perm l := by
  induction l with
  | nil => simp
  | cons a t ih =>
    by_cases hp : p a = true
    · simpa [List.filter_cons, hp] using ih.cons a
    · have hp' : p a = false := by simpa using hp
      simp only [List.filter_cons, hp', Bool.not_false, if_true]
      simp only [Bool.false_eq_true, if_false]
      exact List.perm_middle.trans (ih.cons a)

theorem mem_kahnSources (g : Graph) (r : List String) (x : String) :
    x ∈ kahnSources g r ↔
      x ∈ r ∧ ∀ e ∈ g.edges, ¬(e.2 = x ∧ e.1 ∈ r) := by
  unfold kahnSources
  rw [List.mem_filter, List.all_eq_true]
  constructor
  · rintro ⟨hx, hall⟩
    refine ⟨hx, ?_⟩
    intro e he ⟨h2, h1⟩
    have := hall e he
    simp [h2, h1] at this
  · rintro ⟨hx, hall⟩
    refine ⟨hx, ?_⟩
    intro e he
    have := hall e he
    simp only [Bool.not_eq_true', Bool.and_eq_false_iff]
    by_cases h2 : e.2 = x
    · right
      by_cases h1 : e.1 ∈ r
      · exact absurd ⟨h2, h1⟩ this
      · simpa using h1
    · left
      simpa using h2

theorem kahn_partition (g : Graph) (r : List String) :
    (kahnSources g r ++ r.filter (fun n => !((kahnSources g r).contains n))).Perm r := by
  have hcong : r.filter (fun n => !((kahnSources g r).contains n)) =
      r.filter (fun x => !(g.edges.all (fun e => !(e.2 == x && r.contains e.1)))) := by
    apply List.filter_congr
    intro x hx
    by_cases hp : g.edges.all (fun e => !(e.2 == x && r.contains e.1)) = true
    · have hxs : x ∈ kahnSources g r := by
        unfold kahnSources
        exact List.mem_filter.2 ⟨hx, hp⟩
      simp only [hxs, hp]
      simp [List.contains_iff_exists_mem_beq]
      exact hxs
    · have hxs : x ∉ kahnSources g r := by
        unfold kahnSources
        intro hc
        exact hp (List.mem_filter.1 hc).2
      have hp' : (g.edges.all (fun e => !(e.2 == x && r.contains e.1))) = false := by
        simpa using hp
      simp only [hp']
      simp [List.contains_iff_exists_mem_beq]
      exact hxs
  rw [hcong]
  exact perm_filter_partition r _

theorem kahnAux_perm (g : Graph) :
    ∀ (r : List String) (out : List String), kahnAux g r = some out → out.Perm r := by
  intro r
  induction r using kahnAux.induct g with
  | case1 =>
    intro out h
    rw [kahnAux] at h
    cases h
    exact List.Perm.refl []
  | case2 head tail s hs =>
    intro out h
    rw [kahnAux] at h
    simp only [dif_pos hs] at h
    cases h
  | case3 head tail s hs hnone ih =>
    intro out h
    rw [kahnAux] at h
    simp only [dif_neg hs] at h
    rw [hnone] at h
    cases h
  | case4 head tail out2 s hs hsome ih =>
    intro out h
    rw [kahnAux] at h
    simp only [dif_neg hs] at h
    rw [hsome] at h
    cases h
    exact (((ih out2 hsome).append_left (kahnSources g (head :: tail))).trans
      (kahn_partition g (head :: tail)))

theorem contains_false_of_not_mem (l : List String) (x : String) (h : x ∉ l) :
    (l.contains x) = false := by
  rw [Bool.eq_false_iff]
  intro hc
  rw [List.contains_iff_exists_mem_beq] at hc
  obtain ⟨b, hb, hxb⟩ := hc
  have hxb2 : x = b := by simpa using hxb
  exact h (hxb2 ▸ hb)

theorem kahnAux_prec (g : Graph) :
    ∀ (r : List String), ∀ (out : List String), kahnAux g r = some out →
      ∀ u v, Edge g u v → u ∈ r → v ∈ r →
        u ≠ v ∧ out.indexOf u < out.indexOf v := by
  intro r
  induction r using kahnAux.induct g with
  | case1 =>
    intro out h u v _ hu _
    exact absurd hu (List.not_mem_nil u)
  | case2 head tail s hs =>
    intro out h
    rw [kahnAux] at h
    simp only [dif_pos hs] at h
    cases h
  | case3 head tail s hs hnone ih =>
    intro out h
    rw [kahnAux] at h
    simp only [dif_neg hs] at h
    rw [hnone] at h
    cases h
  | case4 head tail out2 s hs hsome ih =>
    intro out h u v he hu hv
    rw [kahnAux] at h
    simp only [dif_neg hs] at h
    rw [hsome] at h
    cases h
    have hvS : v ∉ kahnSources g (head :: tail) := by
      intro hvs
      exact ((mem_kahnSources g (head :: tail) v).1 hvs).2 (u, v) he ⟨rfl, hu⟩
    by_cases huS : u ∈ kahnSources g (head :: tail)
    · refine ⟨?_, ?_⟩
      · rintro rfl
        exact hvS huS
      · rw [List.indexOf_append_of_mem huS, List.indexOf_append_of_not_mem hvS]
        have h1 : (kahnSources g (head :: tail)).indexOf u <
            (kahnSources g (head :: tail)).length := List.indexOf_lt_length.2 huS
        omega
    · have hu2 : u ∈ (head :: tail).filter
          (fun n => !((kahnSources g (head :: tail)).contains n)) :=
        List.mem_filter.2 ⟨hu, by rw [contains_false_of_not_mem _ u huS]; rfl⟩
      have hv2 : v ∈ (head :: tail).filter
          (fun n => !((kahnSources g (head :: tail)).contains n)) :=
        List.mem_filter.2 ⟨hv, by rw [contains_false_of_not_mem _ v hvS]; rfl⟩
      obtain ⟨hne, hlt⟩ := ih out2 hsome u v he hu2 hv2
      refine ⟨hne, ?_⟩
      rw [List.indexOf_append_of_not_mem huS, List.indexOf_append_of_not_mem hvS]
      omega

/-- When every node of a non-empty set has a predecessor inside the set,
walking predecessors from any start must close a duplicate-free loop. -/
theorem cycle_of_preds (g : Graph) (ns : List String)
    (hpred : ∀ x ∈ ns, ∃ p ∈ ns, Edge g p x) :
    ∀ (k : Nat) (acc : List String), acc ≠ [] → acc.Nodup →
      (∀ x ∈ acc, x ∈ ns) → acc.Chain' (Edge g) →
      ns.length + 1 - acc.length ≤ k → ∃ c, IsSimpleCycle g c := by
  intro k
  induction k with
  | zero =>
    intro acc hne hnd hsub hch hk
    exfalso
    have hlen : acc.length ≤ ns.length := by
      calc acc.length = acc.toFinset.card := (List.toFinset_card_of_nodup hnd).symm
        _ ≤ ns.toFinset.card := Finset.card_le_card (fun x hx => by
            rw [List.mem_toFinset] at hx ⊢
            exact hsub x hx)
        _ ≤ ns.length := ns.toFinset_card_le
    have hpos : 0 < acc.length := List.length_pos.2 hne
    omega
  | succ k ih =>
    intro acc hne hnd hsub hch hk
    cases acc with
    | nil => exact absurd rfl hne
    | cons a rest =>
      obtain ⟨p, hpns, hpe⟩ := hpred a (hsub a (List.mem_cons_self _ _))
      by_cases hpacc : p ∈ a :: rest
      · obtain ⟨l₁, l₂, hsplit⟩ := List.append_of_mem hpacc
        have hassoc : l₁ ++ [p] ++ l₂ = l₁ ++ p :: l₂ := by simp
        refine ⟨l₁ ++ [p], by simp, ?_, ?_, ?_⟩
        · have hsl : (l₁ ++ [p]).Sublist (a :: rest) := by
            rw [hsplit, ← hassoc]
            exact List.sublist_append_left _ _
          exact List.Nodup.sublist hsl hnd
        · have hch2 : List.Chain' (Edge g) ((l₁ ++ [p]) ++ l₂) := by
            rw [hassoc, ← hsplit]
            exact hch
          exact (List.chain'_append.1 hch2).1
        · intro x hx y hy
          have hxp : p = x := by
            rw [List.getLast?_append_of_ne_nil _ (by simp)] at hx
            simpa using hx
          have hya : y = a := by
            cases l₁ with
            | nil =>
              have hap : a = p := by
                have := congrArg List.head? hsplit
                simpa using this
              have hyp : p = y := by simpa using hy
              rw [← hyp, ← hap]
            | cons b t =>
              have hab : a = b := by
                have := congrArg List.head? hsplit
                simpa using this
              have hyb : b = y := by simpa using hy
              rw [← hyb, hab]
          rw [← hxp, hya]
          exact hpe
      · refine ih (p :: a :: rest) (by simp) (List.nodup_cons.2 ⟨hpacc, hnd⟩) ?_ ?_ ?_
        · intro x hx
          rcases List.mem_cons.1 hx with rfl | hx2
          · exact hpns
          · exact hsub x hx2
        · exact List.chain'_cons.2 ⟨hpe, hch⟩
        · simp only [List.length_cons] at hk ⊢
          omega

theorem kahnAux_isSome (g : Graph) (hacy : ∀ c, ¬ IsSimpleCycle g c) :
    ∀ (r : List String), (kahnAux g r).isSome = true := by
  intro r
  induction r using kahnAux.induct g with
  | case1 => rw [kahnAux]; rfl
  | case2 head tail s hs =>
    exfalso
    have hpred : ∀ x ∈ (head :: tail), ∃ p ∈ (head :: tail), Edge g p x := by
      intro x hx
      by_contra hno
      push_neg at hno
      have hxs : x ∈ kahnSources g (head :: tail) := by
        rw [mem_kahnSources]
        refine ⟨hx, ?_⟩
        rintro e he ⟨h2, h1⟩
        have hedge : Edge g e.1 x := by
          show (e.1, x) ∈ g.edges
          rw [← h2]
          exact he
        exact hno e.1 h1 hedge
      rw [show kahnSources g (head :: tail) = [] from hs] at hxs
      cases hxs
    obtain ⟨c, hc⟩ := cycle_of_preds g (head :: tail) hpred
      ((head :: tail).length + 1 - 1) [head] (by simp) (by simp)
      (by
        intro x hx
        simp only [List.mem_singleton] at hx
        subst hx
        exact List.mem_cons_self _ _) (List.chain'_singleton head)
      (by simp)
    exact hacy c hc
  | case3 head tail s hs hnone ih =>
    rw [hnone] at ih
    cases ih
  | case4 head tail out2 s hs hsome ih =>
    rw [kahnAux]
    simp only [dif_neg hs]
    rw [hsome]
    rfl

/-! ## Pipeline preservation and destructuring -/

theorem contains_true_iff_mem (l : List String) (x : String) :
    l.contains x = true ↔ x ∈ l := by
  rw [List.contains_iff_exists_mem_beq]
  constructor
  · rintro ⟨b, hb, hxb⟩
    have hxb2 : x = b := by simpa using hxb
    exact hxb2 ▸ hb
  · intro h
    exact ⟨x, h, by simp⟩

theorem nodeNames_induced_sublist (g : Graph) (ns : List String) :
    (inducedSubgraph g ns).nodeNames.Sublist g.nodeNames := by
  unfold inducedSubgraph Graph.nodeNames
  exact (List.filter_sublist _).map _

theorem mem_nodeNames_induced (g : Graph) (ns : List String) (x : String) :
    x ∈ (inducedSubgraph g ns).nodeNames ↔ x ∈ g.nodeNames ∧ x ∈ ns := by
  unfold inducedSubgraph Graph.nodeNames
  simp only [List.mem_map, List.mem_filter, contains_true_iff_mem]
  constructor
  · rintro ⟨p, ⟨hp, hc⟩, rfl⟩
    exact ⟨⟨p, hp, rfl⟩, hc⟩
  · rintro ⟨⟨p, hp, rfl⟩, hc⟩
    exact ⟨p, ⟨hp, hc⟩, rfl⟩

theorem edge_induced (g : Graph) (ns : List String) (u v : String) :
    Edge (inducedSubgraph g ns) u v ↔ Edge g u v ∧ u ∈ ns ∧ v ∈ ns := by
  unfold Edge inducedSubgraph
  simp only [List.mem_filter, Bool.and_eq_true, contains_true_iff_mem, and_assoc]

theorem WF_inducedSubgraph (g : Graph) (ns : List String) (h : WFGraph g) :
    WFGraph (inducedSubgraph g ns) := by
  obtain ⟨h1, h2, h3⟩ := h
  refine ⟨List.Nodup.sublist (nodeNames_induced_sublist g ns) h1, ?_, ?_⟩
  · exact List.Nodup.sublist (List.filter_sublist _) h2
  · intro e he
    have he2 : e ∈ g.edges.filter (fun e => ns.contains e.1 && ns.contains e.2) := he
    have he3 := List.mem_filter.1 he2
    have hcc := he3.2
    rw [Bool.and_eq_true, contains_true_iff_mem, contains_true_iff_mem] at hcc
    rw [mem_nodeNames_induced, mem_nodeNames_induced]
    exact ⟨⟨(h3 e he3.1).1, hcc.1⟩, (h3 e he3.1).2, hcc.2⟩

theorem nodeNames_mono_foldl_addDeps (name : String) :
    ∀ (l : List String) (g : Graph) (x : String), x ∈ g.nodeNames →
      x ∈ (l.foldl
        (fun gg d => if d = name then gg else addEdge (addNode gg d []) name d) g).nodeNames := by
  intro l
  induction l with
  | nil => intro g x hx; simpa using hx
  | cons d ds ih =>
    intro g x hx
    simp only [List.foldl_cons]
    by_cases hd : d = name
    · rw [if_pos hd]
      exact ih g x hx
    · rw [if_neg hd]
      apply ih
      rw [mem_nodeNames_addEdge, mem_nodeNames_addNode]
      tauto

theorem nodeNames_mono_addPackage (g : Graph) (m : Metafile) (g2 : Graph)
    (r : Option String) (hok : addPackageFromMetafile g m = .ok (g2, r)) :
    ∀ x ∈ g.nodeNames, x ∈ g2.nodeNames := by
  unfold addPackageFromMetafile at hok
  cases hname : m.name with
  | none =>
    rw [hname] at hok
    simp only [Except.ok.injEq, Prod.mk.injEq] at hok
    exact fun x hx => hok.1 ▸ hx
  | some name =>
    rw [hname] at hok
    by_cases hemp : name = ""
    · simp only [hemp, if_true] at hok
      simp only [Except.ok.injEq, Prod.mk.injEq] at hok
      exact fun x hx => hok.1 ▸ hx
    · simp only [hemp, if_false] at hok
      cases hbd : normList m.buildDepends with
      | error e => rw [hbd] at hok; cases hok
      | ok bd =>
        rw [hbd] at hok
        cases hrd : normList m.runtimeDepends with
        | error e => rw [hrd] at hok; cases hok
        | ok rd =>
          rw [hrd] at hok
          cases hop : normList m.buildOptional with
          | error e => rw [hop] at hok; cases hok
          | ok opt =>
            rw [hop] at hok
            simp only [Except.ok.injEq, Prod.mk.injEq] at hok
            intro x hx
            rcases hok with ⟨hg2eq, _⟩
            rw [← hg2eq]
            have hx1 : x ∈ (addNode g name
                [("version", ovAVal m.version), ("origin", .s m.origin),
                 ("provides", .strs m.provides), ("optional", .strs opt)]).nodeNames := by
              rw [mem_nodeNames_addNode]
              exact Or.inl hx
            have hx2 := nodeNames_mono_foldl_addDeps name (dedupKeep (bd ++ rd)) _ x hx1
            by_cases hoe : opt = []
            · simpa [hoe] using hx2
            · simp only [hoe, if_false]
              rw [nodeNames_setAttr]
              exact hx2

theorem ensureRoot_of_mem (g : Graph) (fetch : String → Option Metafile)
    (root : String) (h : root ∈ g.nodeNames) :
    ensureRoot g fetch root = .ok (g, true) := by
  unfold ensureRoot
  rw [if_pos h]

theorem ensureRoot_ok_wf_mono (g : Graph) (fetch : String → Option Metafile)
    (root : String) (g1 : Graph) (b : Bool) (hwf : WFGraph g)
    (hok : ensureRoot g fetch root = .ok (g1, b)) :
    WFGraph g1 ∧ ∀ x ∈ g.nodeNames, x ∈ g1.nodeNames := by
  unfold ensureRoot at hok
  by_cases hr : root ∈ g.nodeNames
  · rw [if_pos hr] at hok
    simp only [Except.ok.injEq, Prod.mk.injEq] at hok
    exact ⟨hok.1 ▸ hwf, fun x hx => hok.1 ▸ hx⟩
  · rw [if_neg hr] at hok
    cases hf : fetch root with
    | none =>
      simp only [hf] at hok
      simp only [Except.ok.injEq, Prod.mk.injEq] at hok
      exact ⟨hok.1 ▸ hwf, fun x hx => hok.1 ▸ hx⟩
    | some m =>
      simp only [hf] at hok
      cases hap : addPackageFromMetafile g m with
      | error e => simp only [hap] at hok; cases hok
      | ok p =>
        obtain ⟨gg, rr⟩ := p
        simp only [hap] at hok
        simp only [Except.ok.injEq, Prod.mk.injEq] at hok
        exact ⟨hok.1 ▸ WF_addPackageFromMetafile g m gg rr hwf hap,
          fun x hx => hok.1 ▸ nodeNames_mono_addPackage g m gg rr hap x hx⟩

theorem except_pure {α : Type} (a : α) : (pure a : Except PyErr α) = .ok a := rfl

theorem except_bind_ok {α β : Type} (a : α) (f : α → Except PyErr β) :
    (Except.ok a >>= f) = f a := rfl

theorem except_bind_err {α β : Type} (e : PyErr) (f : α → Except PyErr β) :
    ((Except.error e : Except PyErr α) >>= f) = .error e := rfl

theorem except_map_ok {α β : Type} (a : α) (f : α → β) :
    ((Except.ok a : Except PyErr α).map f) = .ok (f a) := rfl

theorem except_map_err {α β : Type} (e : PyErr) (f : α → β) :
    ((Except.error e : Except PyErr α).map f) = .error e := rfl

theorem optOne_ok_wf_mono (fetch : String → Option Metafile)
    (prov : String → String → Bool) (st : Graph × List String)
    (parent o : String) (st2 : Graph × List String) (hwf : WFGraph st.1)
    (hok : optOne fetch prov st parent o = .ok st2) :
    WFGraph st2.1 ∧ ∀ x ∈ st.1.nodeNames, x ∈ st2.1.nodeNames := by
  unfold optOne at hok
  by_cases hp : prov parent o
  · rw [if_pos hp] at hok
    by_cases ho : o ∈ st.1.nodeNames
    · simp only [if_pos ho, except_pure, except_bind_ok] at hok
      cases hm : mergeLoop st.1 [o] st.2 with
      | error e => simp only [hm, except_bind_err] at hok; cases hok
      | ok deps2 =>
        simp only [hm, except_bind_ok, except_pure] at hok
        simp only [Except.ok.injEq] at hok
        rw [← hok]
        exact ⟨hwf, fun x hx => hx⟩
    · rw [if_neg ho] at hok
      cases hf : fetch o with
      | none =>
        simp only [hf, except_pure, except_bind_ok] at hok
        cases hm : mergeLoop st.1 [o] st.2 with
        | error e => simp only [hm, except_bind_err] at hok; cases hok
        | ok deps2 =>
          simp only [hm, except_bind_ok, except_pure] at hok
          simp only [Except.ok.injEq] at hok
          rw [← hok]
          exact ⟨hwf, fun x hx => hx⟩
      | some m =>
        simp only [hf] at hok
        cases hap : addPackageFromMetafile st.1 m with
        | error e => simp only [hap, except_map_err, except_bind_err] at hok; cases hok
        | ok p =>
          obtain ⟨gg, rr⟩ := p
          simp only [hap, except_map_ok, except_bind_ok] at hok
          cases hm : mergeLoop gg [o] st.2 with
          | error e => simp only [hm, except_bind_err] at hok; cases hok
          | ok deps2 =>
            simp only [hm, except_bind_ok, except_pure] at hok
            simp only [Except.ok.injEq] at hok
            rw [← hok]
            exact ⟨WF_addPackageFromMetafile st.1 m gg rr hwf hap,
              fun x hx => nodeNames_mono_addPackage st.1 m gg rr hap x hx⟩
  · rw [if_neg hp, except_pure] at hok
    simp only [Except.ok.injEq] at hok
    rw [← hok]
    exact ⟨hwf, fun x hx => hx⟩

theorem optInner_ok_wf_mono (fetch : String → Option Metafile)
    (prov : String → String → Bool) (parent : String) :
    ∀ (os : List String) (st st2 : Graph × List String),
      os.foldlM (fun s2 o => optOne fetch prov s2 parent o) st = .ok st2 →
      WFGraph st.1 → WFGraph st2.1 ∧ ∀ x ∈ st.1.nodeNames, x ∈ st2.1.nodeNames := by
  intro os
  induction os with
  | nil =>
    intro st st2 h hwf
    rw [List.foldlM_nil, except_pure] at h
    simp only [Except.ok.injEq] at h
    rw [← h]
    exact ⟨hwf, fun x hx => hx⟩
  | cons o os ih =>
    intro st st2 h hwf
    rw [List.foldlM_cons] at h
    cases h1 : optOne fetch prov st parent o with
    | error e => rw [h1, except_bind_err] at h; cases h
    | ok stm =>
      rw [h1, except_bind_ok] at h
      obtain ⟨hw1, hm1⟩ := optOne_ok_wf_mono fetch prov st parent o stm hwf h1
      obtain ⟨hw2, hm2⟩ := ih stm st2 h hw1
      exact ⟨hw2, fun x hx => hm2 x (hm1 x hx)⟩

theorem optPhase_ok_wf_mono (fetch : String → Option Metafile)
    (prov : String → String → Bool) :
    ∀ (asks : List (String × List String)) (g : Graph) (deps : List String)
      (st2 : Graph × List String),
      optPhase fetch prov g deps asks = .ok st2 → WFGraph g →
      WFGraph st2.1 ∧ ∀ x ∈ g.nodeNames, x ∈ st2.1.nodeNames := by
  have haux : ∀ (asks : List (String × List String)) (st st2 : Graph × List String),
      asks.foldlM (fun st pa => pa.2.foldlM
        (fun s2 o => optOne fetch prov s2 pa.1 o) st) st = .ok st2 →
      WFGraph st.1 → WFGraph st2.1 ∧ ∀ x ∈ st.1.nodeNames, x ∈ st2.1.nodeNames := by
    intro asks
    induction asks with
    | nil =>
      intro st st2 h hwf
      rw [List.foldlM_nil, except_pure] at h
      simp only [Except.ok.injEq] at h
      rw [← h]
      exact ⟨hwf, fun x hx => hx⟩
    | cons pa rest ih =>
      intro st st2 h hwf
      rw [List.foldlM_cons] at h
      cases h1 : pa.2.foldlM (fun s2 o => optOne fetch prov s2 pa.1 o) st with
      | error e => rw [h1, except_bind_err] at h; cases h
      | ok stm =>
        rw [h1, except_bind_ok] at h
        obtain ⟨hw1, hm1⟩ := optInner_ok_wf_mono fetch prov pa.1 pa.2 st stm h1 hwf
        obtain ⟨hw2, hm2⟩ := ih stm st2 h hw1
        exact ⟨hw2, fun x hx => hm2 x (hm1 x hx)⟩
  intro asks g deps st2 h hwf
  exact haux asks (g, deps) st2 h hwf

theorem optStep_ok_wf_mono (cfg : Config) (fetch : String → Option Metafile)
    (prov : String → String → Bool) (ip : Bool) (g : Graph) (deps : List String)
    (asks : List (String × List String)) (g2 : Graph) (deps2 : List String)
    (hwf : WFGraph g) (hok : optStep cfg fetch prov ip g deps asks = .ok (g2, deps2)) :
    WFGraph g2 ∧ ∀ x ∈ g.nodeNames, x ∈ g2.nodeNames := by
  unfold optStep at hok
  split at hok
  · exact optPhase_ok_wf_mono fetch prov asks g deps (g2, deps2) hok hwf
  · simp only [Except.ok.injEq, Prod.mk.injEq] at hok
    exact ⟨hok.1 ▸ hwf, fun x hx => hok.1 ▸ hx⟩

theorem optStep_of_optFalse (cfg : Config) (fetch : String → Option Metafile)
    (prov : String → String → Bool) (ip : Bool) (g : Graph) (deps : List String)
    (asks : List (String × List String)) (h : cfg.resolveOptional = false) :
    optStep cfg fetch prov ip g deps asks = .ok (g, deps) := by
  unfold optStep
  rw [if_neg]
  simp [h]

theorem resolveCore_fields (g2 : Graph) (visited deps2 : List String)
    (asks : List (String × List String)) (root : String) :
    (resolveCore g2 visited deps2 asks root).g2 = g2 ∧
    (resolveCore g2 visited deps2 asks root).deps = deps2 ∧
    (resolveCore g2 visited deps2 asks root).subNodes = resolveSubNodes deps2 root ∧
    (resolveCore g2 visited deps2 asks root).subg =
      inducedSubgraph g2 (resolveSubNodes deps2 root) := by
  unfold resolveCore
  split
  · split <;> exact ⟨rfl, rfl, rfl, rfl⟩
  · exact ⟨rfl, rfl, rfl, rfl⟩

theorem resolveCore_result_of_cycles (g2 : Graph) (visited deps2 : List String)
    (asks : List (String × List String)) (root : String)
    (h : simpleCycles (inducedSubgraph g2 (resolveSubNodes deps2 root)) ≠ []) :
    (resolveCore g2 visited deps2 asks root).result =
      ([], (simpleCycles (inducedSubgraph g2 (resolveSubNodes deps2 root))).map joinComma) := by
  unfold resolveCore
  rw [if_neg h]

theorem resolveCore_result_of_acyclic (g2 : Graph) (visited deps2 : List String)
    (asks : List (String × List String)) (root : String) (topo : List String)
    (h : simpleCycles (inducedSubgraph g2 (resolveSubNodes deps2 root)) = [])
    (hk : kahnAux (inducedSubgraph g2 (resolveSubNodes deps2 root))
      (inducedSubgraph g2 (resolveSubNodes deps2 root)).nodeNames = some topo) :
    (resolveCore g2 visited deps2 asks root).result = (topo.reverse, []) := by
  unfold resolveCore
  rw [if_pos h, hk]

theorem mem_resolveSubNodes (deps2 : List String) (root : String) (x : String) :
    x ∈ resolveSubNodes deps2 root ↔ x ∈ deps2 ∨ x = root := by
  unfold resolveSubNodes
  by_cases h : root ∈ deps2
  · rw [if_pos h]
    constructor
    · exact Or.inl
    · rintro (hx | rfl)
      · exact hx
      · exact h
  · rw [if_neg h]
    simp

theorem resolveTrace_ok_cases (g : Graph) (cfg : Config)
    (fetch : String → Option Metafile) (prov : String → String → Bool)
    (root : String) (ip : Bool) (t : ResolveTrace)
    (hok : resolveTrace g cfg fetch prov root ip = .ok t) :
    (∃ g1, ensureRoot g fetch root = .ok (g1, false) ∧
      t = ⟨g1, [], [], [], [], emptyGraph, ([], [])⟩) ∨
    (∃ g1 visited deps asks g2 deps2,
      ensureRoot g fetch root = .ok (g1, true) ∧
      dfs g1 [root] [] [] [] = .ok (visited, deps, asks) ∧
      optStep cfg fetch prov ip g1 deps asks = .ok (g2, deps2) ∧
      t = resolveCore g2 visited deps2 asks root) := by
  unfold resolveTrace at hok
  split at hok
  · cases hok
  · rename_i g1 heq
    left
    cases hok
    exact ⟨g1, heq, rfl⟩
  · rename_i g1 heq
    split at hok
    · cases hok
    · rename_i visited deps asks hdfs
      split at hok
      · cases hok
      · rename_i g2 deps2 hopt
        right
        cases hok
        exact ⟨g1, visited, deps, asks, g2, deps2, heq, hdfs, hopt, rfl⟩

/-! ## Index arithmetic for the reversed topological order -/

theorem indexOf_lt_split {α : Type} [DecidableEq α] :
    ∀ (l : List α) (u v : α), v ∈ l → l.indexOf u < l.indexOf v →
      ∃ l₁ l₂ l₃, l = l₁ ++ (u :: (l₂ ++ (v :: l₃))) := by
  intro l
  induction l with
  | nil => intro u v hv _; cases hv
  | cons a t ih =>
    intro u v hv hlt
    by_cases hu : u = a
    · have hva : v ≠ a := by
        rintro rfl
        rw [hu, List.indexOf_cons_self] at hlt
        omega
      have hvt : v ∈ t := by
        rcases List.mem_cons.1 hv with h | h
        · exact absurd h hva
        · exact h
      obtain ⟨s1, s2, hs⟩ := List.append_of_mem hvt
      exact ⟨[], s1, s2, by rw [hs, hu]; rfl⟩
    · have hva : v ≠ a := by
        rintro rfl
        rw [List.indexOf_cons_self] at hlt
        omega
      have hvt : v ∈ t := by
        rcases List.mem_cons.1 hv with h | h
        · exact absurd h hva
        · exact h
      rw [List.indexOf_cons_ne _ (Ne.symm hu), List.indexOf_cons_ne _ (Ne.symm hva)] at hlt
      have hlt2 : t.indexOf u < t.indexOf v := by omega
      obtain ⟨l₁, l₂, l₃, hsp⟩ := ih u v hvt hlt2
      exact ⟨a :: l₁, l₂, l₃, by rw [hsp]; rfl⟩

theorem reverse_indexOf_lt {α : Type} [DecidableEq α] (l : List α) (u v : α)
    (hnd : l.Nodup) (hv : v ∈ l) (h : l.indexOf u < l.indexOf v) :
    l.reverse.indexOf v < l.reverse.indexOf u := by
  obtain ⟨l₁, l₂, l₃, rfl⟩ := indexOf_lt_split l u v hv h
  have hnd1 : (u :: (l₂ ++ (v :: l₃))).Nodup :=
    List.Nodup.sublist (List.sublist_append_right l₁ _) hnd
  obtain ⟨hu_not, hnd2⟩ := List.nodup_cons.1 hnd1
  have hnd3 : (v :: l₃).Nodup :=
    List.Nodup.sublist (List.sublist_append_right l₂ _) hnd2
  obtain ⟨hv_not, _⟩ := List.nodup_cons.1 hnd3
  have huv : u ≠ v := by
    rintro rfl
    exact hu_not (List.mem_append.2 (Or.inr (List.mem_cons_self _ _)))
  have hu3 : u ∉ l₃ := fun hc =>
    hu_not (List.mem_append.2 (Or.inr (List.mem_cons_of_mem _ hc)))
  have hrev : (l₁ ++ (u :: (l₂ ++ (v :: l₃)))).reverse
      = l₃.reverse ++ (v :: (l₂.reverse ++ (u :: l₁.reverse))) := by
    simp
  rw [hrev]
  have hvr : v ∉ l₃.reverse := by
    rw [List.mem_reverse]; exact hv_not
  have hur : u ∉ l₃.reverse := by
    rw [List.mem_reverse]; exact hu3
  rw [List.indexOf_append_of_not_mem hvr, List.indexOf_append_of_not_mem hur,
    List.indexOf_cons_self, List.indexOf_cons_ne _ (Ne.symm huv)]
  omega

theorem count_eq_ite_of_nodup (l : List String) (hnd : l.Nodup) (n : String) :
    l.count n = if n ∈ l then 1 else 0 := by
  by_cases h : n ∈ l
  · rw [if_pos h]
    exact List.count_eq_one_of_mem hnd h
  · rw [if_neg h]
    exact List.count_eq_zero_of_not_mem h

/-! ## The optional-candidate merge loop -/

theorem processSuccs_mem_fst (l : List String) :
    ∀ (deps : List String) (x : String), x ∈ l ∨ x ∈ deps →
      x ∈ (processSuccs deps l).1 := by
  induction l with
  | nil =>
    intro deps x hx
    rcases hx with h | h
    · cases h
    · simpa [processSuccs] using h
  | cons d ds ih =>
    intro deps x hx
    by_cases hd : d ∈ deps
    · simp only [processSuccs, hd, if_true]
      apply ih
      rcases hx with h | h
      · rcases List.mem_cons.1 h with rfl | h2
        · exact Or.inr hd
        · exact Or.inl h2
      · exact Or.inr h
    · simp only [processSuccs, hd, if_false]
      show x ∈ (processSuccs (deps ++ [d]) ds).1
      apply ih
      rcases hx with h | h
      · rcases List.mem_cons.1 h with rfl | h2
        · exact Or.inr (by simp)
        · exact Or.inl h2
      · exact Or.inr (by simp [h])

theorem mergeLoop_sub (g : Graph) :
    ∀ (stack deps D : List String), mergeLoop g stack deps = .ok D →
      ∀ x ∈ deps, x ∈ D := by
  intro stack deps
  induction stack, deps using mergeLoop.induct g with
  | case1 deps =>
    intro D h x hx
    rw [mergeLoop] at h
    cases h
    exact hx
  | case2 deps c rest hc pr ih =>
    intro D h x hx
    rw [mergeLoop] at h
    simp only [if_pos hc] at h
    apply ih D h
    rw [processSuccs_fst]
    exact List.mem_append.2 (Or.inl hx)
  | case3 deps c rest hc =>
    intro D h
    rw [mergeLoop] at h
    simp only [if_neg hc] at h
    cases h

theorem mergeLoop_stack_succs (g : Graph) :
    ∀ (stack deps D : List String), mergeLoop g stack deps = .ok D →
      ∀ s ∈ stack, ∀ d, Edge g s d → d ∈ D := by
  intro stack deps
  induction stack, deps using mergeLoop.induct g with
  | case1 deps =>
    intro D h s hs
    cases hs
  | case2 deps c rest hc pr ih =>
    intro D h s hs d he
    rw [mergeLoop] at h
    simp only [if_pos hc] at h
    rcases List.mem_cons.1 hs with rfl | hs2
    · have hd1 : d ∈ (processSuccs deps (successors g s)).1 :=
        processSuccs_mem_fst _ _ d (Or.inl ((successors_mem g s d).2 he))
      exact mergeLoop_sub g _ _ D h d hd1
    · exact ih D h s (List.mem_append.2 (Or.inr hs2)) d he
  | case3 deps c rest hc =>
    intro D h
    rw [mergeLoop] at h
    simp only [if_neg hc] at h
    cases h

theorem mergeLoop_expanded (g : Graph) :
    ∀ (stack deps D : List String), mergeLoop g stack deps = .ok D →
      ∀ x ∈ D, x ∈ deps ∨ ∀ d, Edge g x d → d ∈ D := by
  intro stack deps
  induction stack, deps using mergeLoop.induct g with
  | case1 deps =>
    intro D h x hx
    rw [mergeLoop] at h
    cases h
    exact Or.inl hx
  | case2 deps c rest hc pr ih =>
    intro D h x hx
    rw [mergeLoop] at h
    simp only [if_pos hc] at h
    rcases ih D h x hx with h2 | h2
    · rw [processSuccs_fst] at h2
      rcases List.mem_append.1 h2 with h3 | h3
      · exact Or.inl h3
      · refine Or.inr ?_
        intro d he
        exact mergeLoop_stack_succs g _ _ D h x
          (List.mem_append.2 (Or.inl (List.mem_reverse.2 h3))) d he
    · exact Or.inr h2
  | case3 deps c rest hc =>
    intro D h
    rw [mergeLoop] at h
    simp only [if_neg hc] at h
    cases h

theorem mergeLoop_sound (g : Graph) :
    ∀ (stack deps D : List String), mergeLoop g stack deps = .ok D →
      ∀ x ∈ D, x ∈ deps ∨ ∃ s ∈ stack, ReachPlus g s x := by
  intro stack deps
  induction stack, deps using mergeLoop.induct g with
  | case1 deps =>
    intro D h x hx
    rw [mergeLoop] at h
    cases h
    exact Or.inl hx
  | case2 deps c rest hc pr ih =>
    intro D h x hx
    rw [mergeLoop] at h
    simp only [if_pos hc] at h
    rcases ih D h x hx with h2 | ⟨s, hs, hreach⟩
    · rw [processSuccs_fst] at h2
      rcases List.mem_append.1 h2 with h3 | h3
      · exact Or.inl h3
      · have hedge : Edge g c x :=
          (successors_mem g c x).1 ((processSuccs_snd _ deps).1 x h3).1
        exact Or.inr ⟨c, List.mem_cons_self _ _, reachPlus_of_edge g c x hedge⟩
    · rcases List.mem_append.1 hs with h3 | h3
      · have hedge : Edge g c s :=
          (successors_mem g c s).1
            ((processSuccs_snd _ deps).1 s (List.mem_reverse.1 h3)).1
        exact Or.inr ⟨c, List.mem_cons_self _ _,
          edge_reachStar g c s x hedge (Or.inr hreach)⟩
      · exact Or.inr ⟨s, List.mem_cons_of_mem _ h3, hreach⟩
  | case3 deps c rest hc =>
    intro D h
    rw [mergeLoop] at h
    simp only [if_neg hc] at h
    cases h

theorem mergeLoop_total (g : Graph) (hwf : WFGraph g) :
    ∀ (stack deps : List String), (∀ s ∈ stack, s ∈ g.nodeNames) →
      ∃ D, mergeLoop g stack deps = .ok D := by
  intro stack deps
  induction stack, deps using mergeLoop.induct g with
  | case1 deps =>
    intro _
    exact ⟨deps, by rw [mergeLoop]⟩
  | case2 deps c rest hc pr ih =>
    intro hmem
    obtain ⟨D, hD⟩ := ih (by
      intro s hs
      rcases List.mem_append.1 hs with h3 | h3
      · have hedge : Edge g c s :=
          (successors_mem g c s).1
            ((processSuccs_snd _ deps).1 s (List.mem_reverse.1 h3)).1
        exact (hwf.2.2 _ hedge).2
      · exact hmem s (List.mem_cons_of_mem _ h3))
    refine ⟨D, ?_⟩
    rw [mergeLoop]
    simp only [if_pos hc]
    exact hD
  | case3 deps c rest hc =>
    intro hmem
    exact absurd (hmem c (List.mem_cons_self _ _)) hc

/-- Walking a closed edge set along a chain keeps membership. -/
theorem chain_last_mem_closed (g : Graph) (D : List String)
    (hclD : ∀ y ∈ D, ∀ d, Edge g y d → d ∈ D) :
    ∀ (l : List String) (a x : String), List.Chain (Edge g) a l →
      l.getLast? = some x → (∀ d, Edge g a d → d ∈ D) → x ∈ D := by
  intro l
  induction l with
  | nil =>
    intro a x _ hl _
    cases hl
  | cons b t ih =>
    intro a x hch hl ha
    rcases List.chain_cons.1 hch with ⟨hab, hrest⟩
    have hbD : b ∈ D := ha b hab
    cases t with
    | nil =>
      have hbx : b = x := by simpa using hl
      exact hbx ▸ hbD
    | cons c t2 =>
      have hl2 : (c :: t2).getLast? = some x := by rw [← hl]; rfl
      exact ih b x hrest hl2 (fun d hd => hclD b hbD d hd)

/-! ## The dependency-collection DFS -/

theorem foldl_dedup_mem (l : List String) :
    ∀ (acc : List String) (x : String),
      x ∈ l.foldl (fun a d => if d ∈ a then a else a ++ [d]) acc ↔ x ∈ acc ∨ x ∈ l := by
  induction l with
  | nil => intro acc x; simp
  | cons d ds ih =>
    intro acc x
    simp only [List.foldl_cons]
    by_cases hd : d ∈ acc
    · rw [if_pos hd, ih]
      constructor
      · rintro (h | h)
        · exact Or.inl h
        · exact Or.inr (List.mem_cons_of_mem _ h)
      · rintro (h | h)
        · exact Or.inl h
        · rcases List.mem_cons.1 h with rfl | h2
          · exact Or.inl hd
          · exact Or.inr h2
    · rw [if_neg hd, ih]
      simp only [List.mem_append, List.mem_singleton, List.mem_cons]
      tauto

theorem mem_succs_filter (g : Graph) (cur x : String) :
    x ∈ (successors g cur).filter (fun d => d != cur) ↔ Edge g cur x ∧ x ≠ cur := by
  rw [List.mem_filter, successors_mem]
  simp only [bne_iff_ne, ne_eq, decide_not]
  constructor
  · rintro ⟨h1, h2⟩
    refine ⟨h1, ?_⟩
    intro hc
    simp [hc] at h2
  · rintro ⟨h1, h2⟩
    refine ⟨h1, ?_⟩
    simp [h2]

theorem dfs_visited_sub (g : Graph) :
    ∀ (stack visited deps : List String) (asks : List (String × List String))
      (V D : List String) (A : List (String × List String)),
      dfs g stack visited deps asks = .ok (V, D, A) → ∀ x ∈ visited, x ∈ V := by
  intro stack visited deps asks
  induction stack, visited, deps, asks using dfs.induct g with
  | case1 visited deps asks =>
    intro V D A h x hx
    rw [dfs] at h
    cases h
    exact hx
  | case2 visited deps asks cur rest hv ih =>
    intro V D A h x hx
    rw [dfs, if_pos hv] at h
    exact ih V D A h x hx
  | case3 visited deps asks cur rest hnv hg succs deps2 opt asks2 ih =>
    intro V D A h x hx
    rw [dfs, if_neg hnv, if_pos hg] at h
    exact ih V D A h x (List.mem_cons_of_mem _ hx)
  | case4 visited deps asks cur rest hnv hng =>
    intro V D A h
    rw [dfs, if_neg hnv, if_neg hng] at h
    cases h

theorem dfs_deps_sub (g : Graph) :
    ∀ (stack visited deps : List String) (asks : List (String × List String))
      (V D : List String) (A : List (String × List String)),
      dfs g stack visited deps asks = .ok (V, D, A) → ∀ x ∈ deps, x ∈ D := by
  intro stack visited deps asks
  induction stack, visited, deps, asks using dfs.induct g with
  | case1 visited deps asks =>
    intro V D A h x hx
    rw [dfs] at h
    cases h
    exact hx
  | case2 visited deps asks cur rest hv ih =>
    intro V D A h x hx
    rw [dfs, if_pos hv] at h
    exact ih V D A h x hx
  | case3 visited deps asks cur rest hnv hg succs deps2 opt asks2 ih =>
    intro V D A h x hx
    rw [dfs, if_neg hnv, if_pos hg] at h
    exact ih V D A h x ((foldl_dedup_mem succs deps x).2 (Or.inl hx))
  | case4 visited deps asks cur rest hnv hng =>
    intro V D A h
    rw [dfs, if_neg hnv, if_neg hng] at h
    cases h

theorem dfs_stack_sub (g : Graph) :
    ∀ (stack visited deps : List String) (asks : List (String × List String))
      (V D : List String) (A : List (String × List String)),
      dfs g stack visited deps asks = .ok (V, D, A) → ∀ x ∈ stack, x ∈ V := by
  intro stack visited deps asks
  induction stack, visited, deps, asks using dfs.induct g with
  | case1 visited deps asks =>
    intro V D A h x hx
    cases hx
  | case2 visited deps asks cur rest hv ih =>
    intro V D A h x hx
    rw [dfs, if_pos hv] at h
    rcases List.mem_cons.1 hx with rfl | hx2
    · exact dfs_visited_sub g rest visited deps asks V D A h x hv
    · exact ih V D A h x hx2
  | case3 visited deps asks cur rest hnv hg succs deps2 opt asks2 ih =>
    intro V D A h x hx
    rw [dfs, if_neg hnv, if_pos hg] at h
    rcases List.mem_cons.1 hx with rfl | hx2
    · exact dfs_visited_sub g _ _ _ _ V D A h x (List.mem_cons_self _ _)
    · exact ih V D A h x (List.mem_append.2 (Or.inr hx2))
  | case4 visited deps asks cur rest hnv hng =>
    intro V D A h
    rw [dfs, if_neg hnv, if_neg hng] at h
    cases h

theorem dfs_visited_sound (g : Graph) :
    ∀ (stack visited deps : List String) (asks : List (String × List String))
      (V D : List String) (A : List (String × List String)),
      dfs g stack visited deps asks = .ok (V, D, A) →
      ∀ x ∈ V, x ∈ visited ∨ ∃ s ∈ stack, ReachStar g s x := by
  intro stack visited deps asks
  induction stack, visited, deps, asks using dfs.induct g with
  | case1 visited deps asks =>
    intro V D A h x hx
    rw [dfs] at h
    cases h
    exact Or.inl hx
  | case2 visited deps asks cur rest hv ih =>
    intro V D A h x hx
    rw [dfs, if_pos hv] at h
    rcases ih V D A h x hx with h2 | ⟨s, hs, hr⟩
    · exact Or.inl h2
    · exact Or.inr ⟨s, List.mem_cons_of_mem _ hs, hr⟩
  | case3 visited deps asks cur rest hnv hg succs deps2 opt asks2 ih =>
    intro V D A h x hx
    rw [dfs, if_neg hnv, if_pos hg] at h
    rcases ih V D A h x hx with h2 | ⟨s, hs, hr⟩
    · rcases List.mem_cons.1 h2 with rfl | h3
      · exact Or.inr ⟨x, List.mem_cons_self _ _, Or.inl rfl⟩
      · exact Or.inl h3
    · rcases List.mem_append.1 hs with h3 | h3
      · have hedge : Edge g cur s :=
          ((mem_succs_filter g cur s).1 (List.mem_reverse.1 h3)).1
        exact Or.inr ⟨cur, List.mem_cons_self _ _, Or.inr (edge_reachStar g cur s x hedge hr)⟩
      · exact Or.inr ⟨s, List.mem_cons_of_mem _ h3, hr⟩
  | case4 visited deps asks cur rest hnv hng =>
    intro V D A h
    rw [dfs, if_neg hnv, if_neg hng] at h
    cases h

theorem dfs_visited_closed (g : Graph) :
    ∀ (stack visited deps : List String) (asks : List (String × List String))
      (V D : List String) (A : List (String × List String)),
      dfs g stack visited deps asks = .ok (V, D, A) →
      (∀ v ∈ visited, ∀ d, Edge g v d → d ≠ v → d ∈ stack ∨ d ∈ visited) →
      ∀ v ∈ V, ∀ d, Edge g v d → d ≠ v → d ∈ V := by
  intro stack visited deps asks
  induction stack, visited, deps, asks using dfs.induct g with
  | case1 visited deps asks =>
    intro V D A h hinv v hv d he hne
    rw [dfs] at h
    cases h
    rcases hinv v hv d he hne with h2 | h2
    · cases h2
    · exact h2
  | case2 visited deps asks cur rest hv ih =>
    intro V D A h hinv
    rw [dfs, if_pos hv] at h
    refine ih V D A h ?_
    intro v hvm d he hne
    rcases hinv v hvm d he hne with h2 | h2
    · rcases List.mem_cons.1 h2 with rfl | h3
      · exact Or.inr hv
      · exact Or.inl h3
    · exact Or.inr h2
  | case3 visited deps asks cur rest hnv hg succs deps2 opt asks2 ih =>
    intro V D A h hinv
    rw [dfs, if_neg hnv, if_pos hg] at h
    refine ih V D A h ?_
    intro v hvm d he hne
    rcases List.mem_cons.1 hvm with rfl | h3
    · refine Or.inl (List.mem_append.2 (Or.inl ?_))
      rw [List.mem_reverse]
      exact (mem_succs_filter g v d).2 ⟨he, hne⟩
    · rcases hinv v h3 d he hne with h4 | h4
      · rcases List.mem_cons.1 h4 with rfl | h5
        · exact Or.inr (List.mem_cons_self _ _)
        · exact Or.inl (List.mem_append.2 (Or.inr h5))
      · exact Or.inr (List.mem_cons_of_mem _ h4)
  | case4 visited deps asks cur rest hnv hng =>
    intro V D A h
    rw [dfs, if_neg hnv, if_neg hng] at h
    cases h

theorem dfs_deps_complete (g : Graph) :
    ∀ (stack visited deps : List String) (asks : List (String × List String))
      (V D : List String) (A : List (String × List String)),
      dfs g stack visited deps asks = .ok (V, D, A) →
      (∀ c0 ∈ visited, ∀ d, Edge g c0 d → d ≠ c0 → d ∈ deps) →
      ∀ c0 ∈ V, ∀ d, Edge g c0 d → d ≠ c0 → d ∈ D := by
  intro stack visited deps asks
  induction stack, visited, deps, asks using dfs.induct g with
  | case1 visited deps asks =>
    intro V D A h hinv
    rw [dfs] at h
    cases h
    exact hinv
  | case2 visited deps asks cur rest hv ih =>
    intro V D A h hinv
    rw [dfs, if_pos hv] at h
    exact ih V D A h hinv
  | case3 visited deps asks cur rest hnv hg succs deps2 opt asks2 ih =>
    intro V D A h hinv
    rw [dfs, if_neg hnv, if_pos hg] at h
    refine ih V D A h ?_
    intro c0 hc0 d he hne
    rcases List.mem_cons.1 hc0 with rfl | h3
    · refine (foldl_dedup_mem succs deps d).2 (Or.inr ?_)
      exact (mem_succs_filter g c0 d).2 ⟨he, hne⟩
    · exact (foldl_dedup_mem succs deps d).2 (Or.inl (hinv c0 h3 d he hne))
  | case4 visited deps asks cur rest hnv hng =>
    intro V D A h
    rw [dfs, if_neg hnv, if_neg hng] at h
    cases h

theorem dfs_deps_sound (g : Graph) :
    ∀ (stack visited deps : List String) (asks : List (String × List String))
      (V D : List String) (A : List (String × List String)),
      dfs g stack visited deps asks = .ok (V, D, A) →
      ∀ x ∈ D, x ∈ deps ∨ ∃ c0 ∈ V, Edge g c0 x ∧ x ≠ c0 := by
  intro stack visited deps asks
  induction stack, visited, deps, asks using dfs.induct g with
  | case1 visited deps asks =>
    intro V D A h x hx
    rw [dfs] at h
    cases h
    exact Or.inl hx
  | case2 visited deps asks cur rest hv ih =>
    intro V D A h x hx
    rw [dfs, if_pos hv] at h
    exact ih V D A h x hx
  | case3 visited deps asks cur rest hnv hg succs deps2 opt asks2 ih =>
    intro V D A h x hx
    rw [dfs, if_neg hnv, if_pos hg] at h
    rcases ih V D A h x hx with h2 | h2
    · rcases (foldl_dedup_mem succs deps x).1 h2 with h3 | h3
      · exact Or.inl h3
      · obtain ⟨hedge, hne⟩ := (mem_succs_filter g cur x).1 h3
        exact Or.inr ⟨cur,
          dfs_visited_sub g _ _ _ _ V D A h cur (List.mem_cons_self _ _), hedge, hne⟩
    · exact Or.inr h2
  | case4 visited deps asks cur rest hnv hng =>
    intro V D A h
    rw [dfs, if_neg hnv, if_neg hng] at h
    cases h

/-- A non-trivial reachability has a last edge from a node other than the
target (take the step into the first occurrence of the target). -/
theorem reachPlus_last_edge_ne (g : Graph) :
    ∀ (k : Nat) (l : List String) (a x : String), l.length ≤ k →
      List.Chain (Edge g) a l → l.getLast? = some x → x ≠ a →
      ∃ c, ReachStar g a c ∧ Edge g c x ∧ c ≠ x := by
  intro k
  induction k with
  | zero =>
    intro l a x hlen hch hl _
    have hnil : l = [] := List.length_eq_zero.1 (Nat.le_zero.1 hlen)
    rw [hnil] at hl
    cases hl
  | succ k ih =>
    intro l a x hlen hch hl hne
    obtain ⟨hne2, hlast⟩ := List.mem_getLast?_eq_getLast hl
    obtain ⟨l2, rfl⟩ : ∃ l2, l = l2 ++ [x] := by
      refine ⟨l.dropLast, ?_⟩
      conv_lhs => rw [← List.dropLast_append_getLast (l := l) (by rintro rfl; cases hl)]
      rw [← hlast]
    cases hl2 : l2.getLast? with
    | none =>
      rw [List.getLast?_eq_none_iff] at hl2
      subst hl2
      have hax : Edge g a x := List.chain_singleton.1 hch
      exact ⟨a, Or.inl rfl, hax, fun h => hne h.symm⟩
    | some c =>
      have hchain2 : List.Chain (Edge g) a l2 := by
        have hsplit : List.Chain' (Edge g) ((a :: l2) ++ [x]) := hch
        exact (List.chain'_append.1 hsplit).1
      have hcx : Edge g c x := by
        have hsplit : List.Chain' (Edge g) ((a :: l2) ++ [x]) := hch
        refine (List.chain'_append.1 hsplit).2.2 c ?_ x rfl
        exact List.mem_getLast?_cons hl2
      by_cases hceq : c = x
      · subst hceq
        have hlen2 : l2.length ≤ k := by
          have := congrArg List.length (rfl : l2 ++ [c] = l2 ++ [c])
          simp only [List.length_append, List.length_singleton] at hlen
          omega
        exact ih l2 a c hlen2 hchain2 hl2 hne
      · exact ⟨c, Or.inr ⟨l2, hchain2, hl2⟩, hcx, hceq⟩

/-- The DFS of `resolve`, run from a present root on a well-formed graph:
the visited set is exactly the reflexively reachable set, and the
dependency set is exactly the nodes with an incoming non-self edge from a
reachable node — equivalently, root-or-reachable minus the root (unless
the root itself has such an incoming edge). -/
theorem dfs_run_spec (g : Graph) (root : String) (V D : List String)
    (A : List (String × List String))
    (hok : dfs g [root] [] [] [] = .ok (V, D, A)) :
    (∀ x, x ∈ V ↔ ReachStar g root x) ∧
    (∀ x, x ∈ D ↔ ∃ c, ReachStar g root c ∧ Edge g c x ∧ x ≠ c) := by
  have hrootV : root ∈ V := dfs_stack_sub g [root] [] [] [] V D A hok root
    (List.mem_cons_self _ _)
  have hclosed : ∀ v ∈ V, ∀ d, Edge g v d → d ≠ v → d ∈ V :=
    dfs_visited_closed g [root] [] [] [] V D A hok (fun v hv => absurd hv (List.not_mem_nil v))
  have hclosed2 : ∀ v ∈ V, ∀ d, Edge g v d → d ∈ V := by
    intro v hv d he
    by_cases hdv : d = v
    · exact hdv ▸ hv
    · exact hclosed v hv d he hdv
  have hVmem : ∀ x, x ∈ V ↔ ReachStar g root x := by
    intro x
    constructor
    · intro hx
      rcases dfs_visited_sound g [root] [] [] [] V D A hok x hx with h | ⟨s, hs, hr⟩
      · cases h
      · have hsr : s = root := by simpa using hs
        exact hsr ▸ hr
    · rintro (rfl | hr)
      · exact hrootV
      · obtain ⟨l, hch, hl⟩ := hr
        exact chain_last_mem_closed g V hclosed2 l root x hch hl
          (fun d hd => hclosed2 root hrootV d hd)
  refine ⟨hVmem, ?_⟩
  intro x
  constructor
  · intro hx
    rcases dfs_deps_sound g [root] [] [] [] V D A hok x hx with h | ⟨c, hc, hedge, hne⟩
    · cases h
    · exact ⟨c, (hVmem c).1 hc, hedge, hne⟩
  · rintro ⟨c, hstar, hedge, hne⟩
    exact dfs_deps_complete g [root] [] [] [] V D A hok
      (fun v hv => absurd hv (List.not_mem_nil v)) c ((hVmem c).2 hstar) x hedge hne

theorem no_simpleCycle_empty : ∀ c, ¬ IsSimpleCycle emptyGraph c := by
  intro c hc
  obtain ⟨n, _, hrp⟩ := reachPlus_self_of_simpleCycle emptyGraph c hc
  obtain ⟨d, he, _⟩ := reachPlus_first_edge emptyGraph n n hrp
  simp [Edge, emptyGraph] at he

/-! ## Cache round-trip -/

theorem loadNodesLoop_serialize (g : Graph) :
    ∀ (l : List (String × Attrs)) (gacc : Graph),
      (∀ p ∈ l, p.1 ∉ gacc.nodeNames) → (l.map Prod.fst).Nodup →
      loadNodesLoop gacc (l.map (fun p =>
        (p.1, CacheMeta.metaObj (.attrsObj p.2)
          (.depsArr ((successors g p.1).map CDepItem.dstr))))) =
      .ok ⟨gacc.nodes ++ l, gacc.edges⟩ := by
  intro l
  induction l with
  | nil =>
    intro gacc _ _
    simp [loadNodesLoop]
  | cons p ps ih =>
    intro gacc hnm hnd
    obtain ⟨n, a⟩ := p
    have hn1 : n ∉ gacc.nodeNames := hnm (n, a) (List.mem_cons_self _ _)
    have hnd2 : (ps.map Prod.fst).Nodup := by
      simp only [List.map_cons] at hnd
      exact (List.nodup_cons.1 hnd).2
    have hn2 : n ∉ ps.map Prod.fst := by
      simp only [List.map_cons] at hnd
      exact (List.nodup_cons.1 hnd).1
    have hadd : addNode gacc n a = ⟨gacc.nodes ++ [(n, a)], gacc.edges⟩ := by
      unfold addNode
      rw [if_neg hn1]
    simp only [List.map_cons, loadNodesLoop]
    rw [hadd]
    have hcond : ∀ q ∈ ps, q.1 ∉ (Graph.mk (gacc.nodes ++ [(n, a)]) gacc.edges).nodeNames := by
      intro q hq
      unfold Graph.nodeNames
      simp only [List.map_append, List.mem_append]
      rintro (hc | hc)
      · exact hnm q (List.mem_cons_of_mem _ hq) hc
      · have hqn : q.1 = n := by simpa using hc
        exact hn2 (hqn ▸ List.mem_map_of_mem Prod.fst hq)
    rw [ih ⟨gacc.nodes ++ [(n, a)], gacc.edges⟩ hcond hnd2]
    simp

theorem loadItems_strs (n : String) :
    ∀ (ss : List String) (gacc : Graph), n ∈ gacc.nodeNames →
      (∀ s ∈ ss, s ∈ gacc.nodeNames) →
      ∃ g2, loadItems gacc n (ss.map CDepItem.dstr) = .ok g2 ∧
        g2.nodes = gacc.nodes ∧
        (∀ e, e ∈ g2.edges ↔ e ∈ gacc.edges ∨ ∃ s ∈ ss, e = (n, s)) := by
  intro ss
  induction ss with
  | nil =>
    intro gacc _ _
    exact ⟨gacc, by simp [loadItems], rfl, fun e => by simp⟩
  | cons s ss ih =>
    intro gacc hn hss
    have hs : s ∈ gacc.nodeNames := hss s (List.mem_cons_self _ _)
    have hnodes : (addEdge gacc n s).nodes = gacc.nodes := nodes_addEdge_of_mem gacc n s hn hs
    have hnames : (addEdge gacc n s).nodeNames = gacc.nodeNames := by
      unfold Graph.nodeNames
      rw [hnodes]
    obtain ⟨g2, hg2, hg2n, hg2e⟩ := ih (addEdge gacc n s)
      (by rw [hnames]; exact hn)
      (by intro s2 hs2; rw [hnames]; exact hss s2 (List.mem_cons_of_mem _ hs2))
    refine ⟨g2, ?_, by rw [hg2n, hnodes], ?_⟩
    · simp only [List.map_cons, loadItems]
      exact hg2
    · intro e
      rw [hg2e, mem_edges_addEdge]
      constructor
      · rintro ((h | rfl) | ⟨s2, hs2, rfl⟩)
        · exact Or.inl h
        · exact Or.inr ⟨s, List.mem_cons_self _ _, rfl⟩
        · exact Or.inr ⟨s2, List.mem_cons_of_mem _ hs2, rfl⟩
      · rintro (h | ⟨s2, hs2, rfl⟩)
        · exact Or.inl (Or.inl h)
        · rcases List.mem_cons.1 hs2 with rfl | h3
          · exact Or.inl (Or.inr rfl)
          · exact Or.inr ⟨s2, h3, rfl⟩

theorem loadEdgesLoop_serialize (g : Graph) (hwf : WFGraph g) :
    ∀ (l : List (String × Attrs)) (gacc : Graph),
      (∀ p ∈ l, p ∈ g.nodes) → gacc.nodeNames = g.nodeNames →
      ∃ g2, loadEdgesLoop gacc (l.map (fun p =>
          (p.1, CacheMeta.metaObj (.attrsObj p.2)
            (.depsArr ((successors g p.1).map CDepItem.dstr))))) = .ok g2 ∧
        g2.nodes = gacc.nodes ∧
        (∀ e, e ∈ g2.edges ↔ e ∈ gacc.edges ∨
          ∃ p ∈ l, e.1 = p.1 ∧ (p.1, e.2) ∈ g.edges) := by
  intro l
  induction l with
  | nil =>
    intro gacc _ _
    exact ⟨gacc, by simp [loadEdgesLoop], rfl, fun e => by simp⟩
  | cons p ps ih =>
    intro gacc hmem hnames
    have hn : p.1 ∈ gacc.nodeNames := by
      rw [hnames]
      exact List.mem_map_of_mem Prod.fst (hmem p (List.mem_cons_self _ _))
    have hsucc : ∀ s ∈ successors g p.1, s ∈ gacc.nodeNames := by
      intro s hs2
      rw [hnames]
      exact (hwf.2.2 _ ((successors_mem g p.1 s).1 hs2)).2
    obtain ⟨gm, hgm, hgmn, hgme⟩ := loadItems_strs p.1 (successors g p.1) gacc hn hsucc
    obtain ⟨g2, hg2, hg2n, hg2e⟩ := ih gm (fun q hq => hmem q (List.mem_cons_of_mem _ hq))
      (by
        unfold Graph.nodeNames
        rw [hgmn]
        exact hnames)
    refine ⟨g2, ?_, by rw [hg2n, hgmn], ?_⟩
    · simp only [List.map_cons, loadEdgesLoop, loadEdgesOne]
      rw [hgm]
      exact hg2
    · intro e
      rw [hg2e, hgme]
      constructor
      · rintro ((h | ⟨s, hs2, rfl⟩) | ⟨q, hq, he1, he2⟩)
        · exact Or.inl h
        · exact Or.inr ⟨p, List.mem_cons_self _ _, rfl, (successors_mem g p.1 s).1 hs2⟩
        · exact Or.inr ⟨q, List.mem_cons_of_mem _ hq, he1, he2⟩
      · rintro (h | ⟨q, hq, he1, he2⟩)
        · exact Or.inl (Or.inl h)
        · rcases List.mem_cons.1 hq with rfl | h3
          · exact Or.inl (Or.inr ⟨e.2, (successors_mem g q.1 e.2).2 he2, Prod.ext he1 rfl⟩)
          · exact Or.inr ⟨q, h3, he1, he2⟩

theorem tryLoadCache_dict (h : Graph) (entries : List (String × CacheMeta)) :
    tryLoadCache h (.decoded (.dict entries)) =
      match loadNodesLoop emptyGraph entries with
      | .error gp => (gp, false)
      | .ok g1 =>
        match loadEdgesLoop g1 entries with
        | .error gp => (gp, false)
        | .ok g2 => (g2, true) := rfl

theorem tryLoadCache_serialize (g h : Graph) (hwf : WFGraph g) :
    ∃ g2, tryLoadCache h (.decoded (.dict (serializeCache g))) = (g2, true) ∧
      g2.nodes = g.nodes ∧ (∀ e, e ∈ g2.edges ↔ e ∈ g.edges) := by
  have h1 := loadNodesLoop_serialize g g.nodes emptyGraph
    (by intro p _; simp [emptyGraph, Graph.nodeNames]) hwf.1
  have hempty : (Graph.mk (emptyGraph.nodes ++ g.nodes) emptyGraph.edges) =
      ⟨g.nodes, []⟩ := by
    simp [emptyGraph]
  rw [hempty] at h1
  obtain ⟨g2, hg2, hg2n, hg2e⟩ := loadEdgesLoop_serialize g hwf g.nodes ⟨g.nodes, []⟩
    (fun p hp => hp) rfl
  have h1b : loadNodesLoop emptyGraph (serializeCache g) = .ok (⟨g.nodes, []⟩ : Graph) := h1
  have hg2b : loadEdgesLoop (⟨g.nodes, []⟩ : Graph) (serializeCache g) = .ok g2 := hg2
  refine ⟨g2, ?_, by rw [hg2n], ?_⟩
  · rw [tryLoadCache_dict]
    simp only [h1b, hg2b]
  · intro e
    rw [hg2e]
    constructor
    · rintro (h2 | ⟨p, _, he1, he2⟩)
      · cases h2
      · have heq : e = (p.1, e.2) := Prod.ext he1 rfl
        rw [heq]
        exact he2
    · intro h2
      obtain ⟨p, hp, hpe⟩ := List.mem_map.1 (hwf.2.2 e h2).1
      refine Or.inr ⟨p, hp, hpe.symm, ?_⟩
      have heq : (p.1, e.2) = e := Prod.ext hpe rfl
      rw [heq]
      exact h2

/-! ## Claim theorems -/

/-- Claim C6, counterexample: the claim says normalization of a raw
string token returns the substring before the first whitespace (with
trailing comparison operators stripped).  On the token `" libfoo"` that
substring is empty, but the code (Python `split()`) skips the leading
whitespace and returns `"libfoo"`. -/
theorem claim_C6_counterexample :
    normStrTok " libfoo" = .ok "libfoo" ∧ specNormalizeTok " libfoo" = "" ∧
    ("libfoo" : String) ≠ "" := by
  refine ⟨by decide, by decide, by decide⟩

/-- Claim C6, amended: for every raw string token containing at least one
non-whitespace character, normalization returns the first
whitespace-delimited word (leading whitespace skipped) with any trailing
comparison operator and everything after it stripped; a structured entry
with a name field contributes that field verbatim; `"libfoo>=1.2"`
normalizes to `"libfoo"` and `{name: "libbar"}` to `"libbar"`. -/
theorem claim_C6_normalization (s : String) (h : ∃ c ∈ s.data, isPyWs c = false) :
    normStrTok s = .ok (String.mk
      (stripOps ((s.data.dropWhile isPyWs).takeWhile (fun c => !isPyWs c)))) ∧
    (∀ (nm : String) (l : List DepEntry) (out : List String),
      normList l = .ok out → normList (.named nm :: l) = .ok (nm :: out)) ∧
    normStrTok "libfoo>=1.2" = .ok "libfoo" ∧
    normList [.named "libbar"] = .ok ["libbar"] :=
  ⟨normStrTok_of_exists s h, normList_named_cons, by decide, by decide⟩

/-- Witness for the amended claim C6 at the concrete token `"libfoo>=1.2"`. -/
theorem claim_C6_normalization_witness :
    (∃ c ∈ ("libfoo>=1.2" : String).data, isPyWs c = false) ∧
    (normStrTok "libfoo>=1.2" = .ok "libfoo" ∧
     (∀ (nm : String) (l : List DepEntry) (out : List String),
       normList l = .ok out → normList (.named nm :: l) = .ok (nm :: out)) ∧
     normStrTok "libfoo>=1.2" = .ok "libfoo" ∧
     normList [.named "libbar"] = .ok ["libbar"]) :=
  ⟨by decide, claim_C6_normalization "libfoo>=1.2" (by decide)⟩

/-- Claim C7: `detect_orphans` returns exactly the installed names whose
reverse-dependency set in the loaded graph is empty (installed names
absent from the graph included), in database order; an installed package
with an incoming dependency edge is never reported. -/
theorem claim_C7_detect_orphans (g : Graph) (installed : List String) :
    (∀ x, x ∈ detectOrphans g installed ↔
      x ∈ installed ∧ ∀ src, ¬ Edge g src x) ∧
    (detectOrphans g installed).Sublist installed := by
  constructor
  · intro x
    unfold detectOrphans
    rw [List.mem_filter]
    have hpred : ((match List.lookup x (revdepsMap g) with
        | some s => s.isEmpty
        | none => true) = true) ↔ lkupD (revdepsMap g) x = [] := by
      cases hl : List.lookup x (revdepsMap g) with
      | some s => simp [lkupD, hl, List.isEmpty_iff]
      | none => simp [lkupD, hl]
    have hempty : lkupD (revdepsMap g) x = [] ↔ ∀ src, ¬ Edge g src x := by
      rw [List.eq_nil_iff_forall_not_mem]
      constructor
      · intro hall src hsrc
        exact hall src ((revdepsMap_mem g x src).2 hsrc)
      · intro hall y hy
        exact hall y ((revdepsMap_mem g x y).1 hy)
    rw [hpred, hempty]
  · exact List.filter_sublist _

/-- Claim C10: a build or runtime dependency list containing an empty or
whitespace-only string token makes `add_package_from_metafile` raise an
unhandled `IndexError` (from `it.split()[0]` in `norm_list`), and the
package is not added: the graph is unchanged. -/
theorem claim_C10_ws_token_raises (g : Graph) (m : Metafile) (name s : String)
    (hn : m.name = some name) (hne : name ≠ "")
    (hmem : DepEntry.tok s ∈ m.buildDepends ∨ DepEntry.tok s ∈ m.runtimeDepends)
    (hws : ∀ c ∈ s.data, isPyWs c = true) :
    addPackageFromMetafile g m = .error .indexError ∧
    (match addPackageFromMetafile g m with
     | .ok (g2, _) => g2
     | .error _ => g) = g := by
  have hmain : addPackageFromMetafile g m = .error .indexError := by
    unfold addPackageFromMetafile
    rw [hn]
    simp only [hne, if_false]
    rcases hmem with hb | hr
    · rw [normList_error_of_ws_tok m.buildDepends s hb hws]
    · cases hbd : normList m.buildDepends with
      | error e => rw [normList_error_eq _ e hbd]
      | ok bd => rw [normList_error_of_ws_tok m.runtimeDepends s hr hws]
  exact ⟨hmain, by rw [hmain]⟩

/-- Witness for claim C10: a metafile whose build dependencies contain
the whitespace-only token `" "`. -/
theorem claim_C10_ws_token_raises_witness :
    ((⟨some "pkg", none, "", [], [DepEntry.tok " "], [], []⟩ : Metafile).name
        = some "pkg") ∧
    ("pkg" : String) ≠ "" ∧
    (DepEntry.tok " " ∈
        (⟨some "pkg", none, "", [], [DepEntry.tok " "], [], []⟩ : Metafile).buildDepends ∨
      DepEntry.tok " " ∈
        (⟨some "pkg", none, "", [], [DepEntry.tok " "], [], []⟩ : Metafile).runtimeDepends) ∧
    (∀ c ∈ (" " : String).data, isPyWs c = true) ∧
    (addPackageFromMetafile emptyGraph
        ⟨some "pkg", none, "", [], [DepEntry.tok " "], [], []⟩ = .error .indexError ∧
      (match addPackageFromMetafile emptyGraph
          ⟨some "pkg", none, "", [], [DepEntry.tok " "], [], []⟩ with
       | .ok (g2, _) => g2
       | .error _ => emptyGraph) = emptyGraph) :=
  ⟨by decide, by decide, by decide, by decide,
   claim_C10_ws_token_raises emptyGraph _ "pkg" " " (by decide) (by decide)
     (by decide) (by decide)⟩

/-- Claim C1: resolving a present root on a well-formed graph (optional
resolution off) with an acyclic resolved subgraph returns a build order
that lists every node of the induced subgraph exactly once; the subgraph
consists of the root plus its transitive dependencies; for every edge
`u -> v` of the subgraph the dependency `v` precedes the dependent `u`;
and no cycles are reported. -/
theorem claim_C1_acyclic_order (g : Graph) (cfg : Config)
    (fetch : String → Option Metafile) (prov : String → String → Bool)
    (root : String) (ip : Bool) (t : ResolveTrace)
    (hwf : WFGraph g) (hoptF : cfg.resolveOptional = false)
    (hroot : root ∈ g.nodeNames)
    (hok : resolveTrace g cfg fetch prov root ip = .ok t)
    (hacy : Acyclic t.subg) :
    (∀ n, t.result.1.count n = if n ∈ t.subg.nodeNames then 1 else 0) ∧
    (∀ n, n ∈ t.subg.nodeNames ↔ n = root ∨ ReachPlus g root n) ∧
    (∀ u v, Edge t.subg u v → t.result.1.indexOf v < t.result.1.indexOf u) ∧
    t.result.2 = [] := by
  rcases resolveTrace_ok_cases g cfg fetch prov root ip t hok with
    ⟨g1, her, rfl⟩ | ⟨g1, visited, deps, asks, g2, deps2, her, hdfs, hopt2, rfl⟩
  · rw [ensureRoot_of_mem g fetch root hroot] at her
    simp at her
  · have hg1 : g1 = g := by
      rw [ensureRoot_of_mem g fetch root hroot] at her
      simp only [Except.ok.injEq, Prod.mk.injEq] at her
      exact her.1.symm
    subst hg1
    rw [optStep_of_optFalse cfg fetch prov ip g1 deps asks hoptF] at hopt2
    simp only [Except.ok.injEq, Prod.mk.injEq] at hopt2
    obtain ⟨h5, h6⟩ := hopt2
    subst h5
    subst h6
    obtain ⟨hg2f, hdepsf, hsubNf, hsubgf⟩ := resolveCore_fields g1 visited deps asks root
    have hwfsub : WFGraph (inducedSubgraph g1 (resolveSubNodes deps root)) :=
      WF_inducedSubgraph g1 _ hwf
    rw [hsubgf] at hacy
    have hnsc : ∀ c, ¬ IsSimpleCycle (inducedSubgraph g1 (resolveSubNodes deps root)) c := by
      intro c hc
      obtain ⟨n, _, hrp⟩ := reachPlus_self_of_simpleCycle _ c hc
      exact hacy n hrp
    have hsc : simpleCycles (inducedSubgraph g1 (resolveSubNodes deps root)) = [] :=
      (acyclic_iff_simpleCycles_nil _ hwfsub).1 hacy
    obtain ⟨topo, htopo⟩ := Option.isSome_iff_exists.1 (kahnAux_isSome _ hnsc _)
    have hres := resolveCore_result_of_acyclic g1 visited deps asks root topo hsc htopo
    obtain ⟨hVmem, hDmem⟩ := dfs_run_spec g1 root visited deps asks hdfs
    have hsubN : ∀ n, n ∈ resolveSubNodes deps root ↔ n = root ∨ ReachPlus g1 root n := by
      intro n
      rw [mem_resolveSubNodes]
      constructor
      · rintro (hn | rfl)
        · obtain ⟨c, hstar, hedge, _⟩ := (hDmem n).1 hn
          exact Or.inr (reachStar_edge g1 root c n hstar hedge)
        · exact Or.inl rfl
      · rintro (rfl | hr)
        · exact Or.inr rfl
        · by_cases hnr : n = root
          · exact Or.inr hnr
          · obtain ⟨l, hch, hl⟩ := hr
            obtain ⟨c, hstar, hedge, hcn⟩ :=
              reachPlus_last_edge_ne g1 l.length l root n (Nat.le_refl _) hch hl hnr
            exact Or.inl ((hDmem n).2 ⟨c, hstar, hedge, fun h => hcn h.symm⟩)
    have hsubgN : ∀ n, n ∈ (inducedSubgraph g1 (resolveSubNodes deps root)).nodeNames ↔
        n = root ∨ ReachPlus g1 root n := by
      intro n
      rw [mem_nodeNames_induced, hsubN n]
      constructor
      · rintro ⟨_, h2⟩
        exact h2
      · rintro h
        refine ⟨?_, h⟩
        rcases h with rfl | hr
        · exact hroot
        · exact (reachPlus_mem_names g1 root n hwf hr).2
    have hperm : topo.Perm (inducedSubgraph g1 (resolveSubNodes deps root)).nodeNames :=
      kahnAux_perm _ _ topo htopo
    have hnodup : topo.Nodup := (hperm.nodup_iff).2 hwfsub.1
    refine ⟨?_, ?_, ?_, ?_⟩
    · intro n
      rw [hres, hsubgf]
      show (topo.reverse).count n =
        if n ∈ (inducedSubgraph g1 (resolveSubNodes deps root)).nodeNames then 1 else 0
      rw [List.count_reverse, hperm.count_eq, count_eq_ite_of_nodup _ hwfsub.1 n]
    · intro n
      rw [hsubgf]
      exact hsubgN n
    · intro u v hedge
      rw [hsubgf] at hedge
      rw [hres]
      show (topo.reverse).indexOf v < (topo.reverse).indexOf u
      have huv := kahnAux_prec _ _ topo htopo u v hedge
        (hwfsub.2.2 (u, v) hedge).1 (hwfsub.2.2 (u, v) hedge).2
      exact reverse_indexOf_lt topo u v hnodup
        (hperm.mem_iff.2 (hwfsub.2.2 (u, v) hedge).2) huv.2
    · rw [hres]

/-- Claim C2: when the resolved subgraph contains a simple cycle, `resolve`
returns an empty build order together with the comma-joined cycle report,
which is non-empty, consists exactly of the simple cycles of the subgraph
(one representative per rotation class: every entry is a simple cycle,
every simple cycle has exactly one rotation among the entries), so a
non-empty build order and a non-empty cycle report never coexist. -/
theorem claim_C2_cycle_report (g : Graph) (cfg : Config)
    (fetch : String → Option Metafile) (prov : String → String → Bool)
    (root : String) (ip : Bool) (t : ResolveTrace) (hwf : WFGraph g)
    (hok : resolveTrace g cfg fetch prov root ip = .ok t)
    (hcyc : ∃ c, IsSimpleCycle t.subg c) :
    t.result.1 = [] ∧
    t.result.2 = (simpleCycles t.subg).map joinComma ∧
    t.result.2 ≠ [] ∧
    (∀ c ∈ simpleCycles t.subg, IsSimpleCycle t.subg c) ∧
    (∀ c, IsSimpleCycle t.subg c →
      ∃ c₂, c₂ ∈ simpleCycles t.subg ∧ List.IsRotated c₂ c) ∧
    (∀ c₁ c₂, c₁ ∈ simpleCycles t.subg → c₂ ∈ simpleCycles t.subg →
      List.IsRotated c₁ c₂ → c₁ = c₂) := by
  rcases resolveTrace_ok_cases g cfg fetch prov root ip t hok with
    ⟨g1, her, rfl⟩ | ⟨g1, visited, deps, asks, g2, deps2, her, hdfs, hopt, rfl⟩
  · exfalso
    obtain ⟨c, hc⟩ := hcyc
    exact no_simpleCycle_empty c hc
  · obtain ⟨hg2f, hdepsf, hsubNf, hsubgf⟩ := resolveCore_fields g2 visited deps2 asks root
    obtain ⟨hwf1, hmono1⟩ := ensureRoot_ok_wf_mono g fetch root g1 true hwf her
    obtain ⟨hwf2, hmono2⟩ :=
      optStep_ok_wf_mono cfg fetch prov ip g1 deps asks g2 deps2 hwf1 hopt
    have hwfsub : WFGraph (inducedSubgraph g2 (resolveSubNodes deps2 root)) :=
      WF_inducedSubgraph g2 _ hwf2
    rw [hsubgf] at hcyc
    obtain ⟨c, hc⟩ := hcyc
    obtain ⟨c₂, hc₂, _⟩ := simpleCycles_complete _ hwfsub c hc
    have hne : simpleCycles (inducedSubgraph g2 (resolveSubNodes deps2 root)) ≠ [] :=
      List.ne_nil_of_mem hc₂
    have hres := resolveCore_result_of_cycles g2 visited deps2 asks root hne
    rw [hsubgf, hres]
    refine ⟨rfl, rfl, ?_, ?_, ?_, ?_⟩
    · intro hmap
      apply hne
      have hlen := congrArg List.length hmap
      simp only [List.length_map, List.length_nil] at hlen
      exact List.length_eq_zero.1 hlen
    · intro c0 hc0
      exact simpleCycles_sound _ c0 hc0
    · intro c0 hc0
      exact simpleCycles_complete _ hwfsub c0 hc0
    · intro c₃ c₄ h3 h4 hrot
      exact simpleCycles_unique _ hwfsub c₃ c₄ h3 h4 hrot

/-- Claim C3: for every graph built purely through a sequence of
`add_package_from_metafile` calls, loading the persisted cache
reconstructs the graph exactly — identical node list with identical
per-node attributes, the same edge set — and sets the
`loaded_from_cache` flag. -/
theorem claim_C3_cache_roundtrip (ms : List Metafile) (h : Graph) :
    ∃ g2, tryLoadCache h (.decoded (.dict (serializeCache (buildGraph ms)))) = (g2, true) ∧
      g2.nodes = (buildGraph ms).nodes ∧
      (∀ e, e ∈ g2.edges ↔ e ∈ (buildGraph ms).edges) :=
  tryLoadCache_serialize (buildGraph ms) h (WF_buildGraph ms)

/-- Claim C8 (amended): cache loading never raises (the embedded loader
is total), but a failure does not generally leave an empty graph: a
missing, unreadable or undecodable file keeps the previous graph
untouched; a decoded non-dict document leaves the cleared (empty) graph;
and a structurally malformed entry reached after well-formed ones leaves
the partially rebuilt graph of the preceding entries.  The
`loaded_from_cache` flag is false in every failure case. -/
theorem claim_C8_cache_resilience (g : Graph) :
    tryLoadCache g .missing = (g, false) ∧
    tryLoadCache g .readError = (g, false) ∧
    tryLoadCache g .decodeError = (g, false) ∧
    tryLoadCache g (.decoded .nonDict) = (emptyGraph, false) ∧
    (∀ entries gp, loadNodesLoop emptyGraph entries = .error gp →
      tryLoadCache g (.decoded (.dict entries)) = (gp, false)) ∧
    (∀ entries g1 gp, loadNodesLoop emptyGraph entries = .ok g1 →
      loadEdgesLoop g1 entries = .error gp →
      tryLoadCache g (.decoded (.dict entries)) = (gp, false)) := by
  refine ⟨rfl, rfl, rfl, rfl, ?_, ?_⟩
  · intro entries gp h
    rw [tryLoadCache_dict]
    simp only [h]
  · intro entries g1 gp h1 h2
    rw [tryLoadCache_dict]
    simp only [h1, h2]

/-- Claim C8, counterexample: a cache document whose second entry is
malformed (not a dict) leaves the resolver with a non-empty partial
graph containing the first entry — not with an empty graph as claimed. -/
theorem claim_C8_counterexample :
    tryLoadCache emptyGraph (.decoded (.dict
      [("a", .metaObj (.attrsObj []) .absent), ("b", .nonDict)]))
      = (⟨[("a", [])], []⟩, false) ∧
    (Graph.mk [("a", [])] []) ≠ emptyGraph :=
  ⟨by decide, by decide⟩

/-- Witness for the amended claim C8: the missing-file case keeps the
graph, and the malformed-entry case keeps the partial graph. -/
theorem claim_C8_cache_resilience_witness :
    tryLoadCache emptyGraph .missing = (emptyGraph, false) ∧
    tryLoadCache emptyGraph (.decoded (.dict
      [("a", .metaObj (.attrsObj []) .absent), ("b", .nonDict)]))
      = (⟨[("a", [])], []⟩, false) :=
  ⟨(claim_C8_cache_resilience emptyGraph).1,
   (claim_C8_cache_resilience emptyGraph).2.2.2.2.1
     [("a", .metaObj (.attrsObj []) .absent), ("b", .nonDict)]
     ⟨[("a", [])], []⟩ (by decide)⟩

/-- Claim C5 (amended): when the root is absent from the graph and the
ports tree cannot supply a descriptor, `resolve` does not raise a
`PackageNotFound` failure (no such failure value exists in the module);
it logs a warning and returns the plain value `([], [])`.  That sentinel
is nevertheless distinguishable from any result for a root present in a
well-formed graph, since those runs always return a non-empty build
order or a non-empty cycle report. -/
theorem claim_C5_not_found (g : Graph) (cfg : Config)
    (fetch : String → Option Metafile) (prov : String → String → Bool)
    (root : String) (ip : Bool) :
    (root ∉ g.nodeNames → fetch root = none →
      resolve g cfg fetch prov root ip = .ok ([], [])) ∧
    (∀ t, WFGraph g → root ∈ g.nodeNames →
      resolveTrace g cfg fetch prov root ip = .ok t → t.result ≠ ([], [])) := by
  constructor
  · intro hr hf
    unfold resolve resolveTrace ensureRoot
    rw [if_neg hr, hf]
    rfl
  · intro t hwf hroot hok hres
    rcases resolveTrace_ok_cases g cfg fetch prov root ip t hok with
      ⟨g1, her, rfl⟩ | ⟨g1, visited, deps, asks, g2, deps2, her, hdfs, hopt, rfl⟩
    · rw [ensureRoot_of_mem g fetch root hroot] at her
      simp at her
    · obtain ⟨hg2f, hdepsf, hsubNf, hsubgf⟩ := resolveCore_fields g2 visited deps2 asks root
      have hg1 : g1 = g := by
        rw [ensureRoot_of_mem g fetch root hroot] at her
        simp only [Except.ok.injEq, Prod.mk.injEq] at her
        exact her.1.symm
      obtain ⟨hwf2, hmono2⟩ :=
        optStep_ok_wf_mono cfg fetch prov ip g1 deps asks g2 deps2 (hg1 ▸ hwf) hopt
      have hrootg2 : root ∈ g2.nodeNames := hmono2 root (by rw [hg1]; exact hroot)
      have hrootsub : root ∈ (inducedSubgraph g2 (resolveSubNodes deps2 root)).nodeNames := by
        rw [mem_nodeNames_induced]
        exact ⟨hrootg2, (mem_resolveSubNodes deps2 root root).2 (Or.inr rfl)⟩
      by_cases hsc : simpleCycles (inducedSubgraph g2 (resolveSubNodes deps2 root)) = []
      · have hwfsub := WF_inducedSubgraph g2 (resolveSubNodes deps2 root) hwf2
        have hacy : ∀ c, ¬ IsSimpleCycle (inducedSubgraph g2 (resolveSubNodes deps2 root)) c := by
          intro c hc
          obtain ⟨c₂, hc₂, _⟩ := simpleCycles_complete _ hwfsub c hc
          rw [hsc] at hc₂
          cases hc₂
        have hsome := kahnAux_isSome _ hacy
          (inducedSubgraph g2 (resolveSubNodes deps2 root)).nodeNames
        obtain ⟨topo, htopo⟩ := Option.isSome_iff_exists.1 hsome
        have hres2 := resolveCore_result_of_acyclic g2 visited deps2 asks root topo hsc htopo
        rw [hres2] at hres
        simp only [Prod.mk.injEq] at hres
        have hmem : root ∈ topo := ((kahnAux_perm _ _ topo htopo).mem_iff).2 hrootsub
        have hmem2 : root ∈ topo.reverse := List.mem_reverse.2 hmem
        rw [hres.1] at hmem2
        cases hmem2
      · have hres2 := resolveCore_result_of_cycles g2 visited deps2 asks root hsc
        rw [hres2] at hres
        simp only [Prod.mk.injEq] at hres
        apply hsc
        have hlen := congrArg List.length hres.2
        simp only [List.length_map, List.length_nil] at hlen
        exact List.length_eq_zero.1 hlen

/-- Concrete cycle `A -> B -> C -> A`, for witnesses. -/
def cycGraph : Graph := buildGraph
  [⟨some "A", none, "", [], [.tok "B"], [], []⟩,
   ⟨some "B", none, "", [], [.tok "C"], [], []⟩,
   ⟨some "C", none, "", [], [.tok "A"], [], []⟩]

/-- The trace of resolving `"A"` on `cycGraph` (optional prompts off). -/
def cycTrace : ResolveTrace :=
  ⟨cycGraph, ["C", "B", "A"], ["B", "C", "A"], [], ["B", "C", "A"], cycGraph,
   ([], ["A,B,C"])⟩

/-- Concrete chain `A -> B -> C`, for witnesses. -/
def chainGraph : Graph := buildGraph
  [⟨some "A", none, "", [], [.tok "B"], [], []⟩,
   ⟨some "B", none, "", [], [.tok "C"], [], []⟩,
   ⟨some "C", none, "", [], [], [], []⟩]

/-- The trace of resolving `"A"` on `chainGraph` (optional prompts off). -/
def chainTrace : ResolveTrace :=
  ⟨chainGraph, ["C", "B", "A"], ["B", "C"], [], ["B", "C", "A"], chainGraph,
   (["C", "B", "A"], [])⟩

/-- Concrete graph where the root's only optional candidate `o` lies on a
two-node cycle `o <-> p` and is not a hard dependency of the root. -/
def optGraph : Graph := buildGraph
  [⟨some "r", none, "", [], [], [.tok "o"], []⟩,
   ⟨some "o", none, "", [], [.tok "p"], [], []⟩,
   ⟨some "p", none, "", [], [.tok "o"], [], []⟩]

/-- Witness for claim C1 on the concrete chain `A -> B -> C`. -/
theorem claim_C1_acyclic_order_witness :
    (∀ n, chainTrace.result.1.count n =
      if n ∈ chainTrace.subg.nodeNames then 1 else 0) ∧
    (∀ n, n ∈ chainTrace.subg.nodeNames ↔ n = "A" ∨ ReachPlus chainGraph "A" n) ∧
    (∀ u v, Edge chainTrace.subg u v →
      chainTrace.result.1.indexOf v < chainTrace.result.1.indexOf u) ∧
    chainTrace.result.2 = [] :=
  claim_C1_acyclic_order chainGraph ⟨false⟩ (fun _ => none) (fun _ _ => false)
    "A" false chainTrace (by decide) rfl (by decide) (by decide)
    ((acyclic_iff_simpleCycles_nil chainTrace.subg (by decide)).2 (by decide))

/-- Witness for claim C2 on the concrete cycle `A -> B -> C -> A`. -/
theorem claim_C2_cycle_report_witness :
    WFGraph cycGraph ∧
    (cycTrace.result.1 = [] ∧
     cycTrace.result.2 = (simpleCycles cycTrace.subg).map joinComma ∧
     cycTrace.result.2 ≠ [] ∧
     (∀ c ∈ simpleCycles cycTrace.subg, IsSimpleCycle cycTrace.subg c) ∧
     (∀ c, IsSimpleCycle cycTrace.subg c →
       ∃ c₂, c₂ ∈ simpleCycles cycTrace.subg ∧ List.IsRotated c₂ c) ∧
     (∀ c₁ c₂, c₁ ∈ simpleCycles cycTrace.subg → c₂ ∈ simpleCycles cycTrace.subg →
       List.IsRotated c₁ c₂ → c₁ = c₂)) :=
  ⟨by decide,
   claim_C2_cycle_report cycGraph ⟨false⟩ (fun _ => none) (fun _ _ => false) "A" false
     cycTrace (by decide) (by decide) ⟨["A", "B", "C"], by decide⟩⟩

/-- Witness for claim C5: the sentinel on a missing root, and a present
chain root whose result is not the sentinel. -/
theorem claim_C5_not_found_witness :
    (resolve emptyGraph ⟨false⟩ (fun _ => none) (fun _ _ => false) "ghost" true
      = .ok ([], [])) ∧
    chainTrace.result ≠ ([], []) :=
  ⟨(claim_C5_not_found emptyGraph ⟨false⟩ (fun _ => none) (fun _ _ => false)
      "ghost" true).1 (by decide) rfl,
   (claim_C5_not_found chainGraph ⟨false⟩ (fun _ => none) (fun _ _ => false)
      "A" false).2 chainTrace (by decide) (by decide) (by decide)⟩

/-- The trace of resolving `"r"` on `optGraph` with prompts and
`resolve_optional` enabled and the provider accepting: the candidate `o`
itself lands in the dependency set via its cycle. -/
def optTrace : ResolveTrace :=
  ⟨optGraph, ["r"], ["p", "o"], [("r", ["o"])], ["p", "o", "r"], optGraph,
   ([], ["o,p"])⟩

/-- The trace of the same call with the prompt disabled: no optional
dependency is merged. -/
def optTraceNoPrompt : ResolveTrace :=
  ⟨optGraph, ["r"], [], [("r", ["o"])], ["r"],
   ⟨[("r", [("version", .null), ("origin", .s ""), ("provides", .strs []),
      ("optional", .strs ["o"])])], []⟩,
   (["r"], [])⟩

/-- Claim C9 (amended): merging an accepted optional candidate `o` into a
successor-closed dependency set adds exactly the nodes reachable from `o`
along one or more edges — including `o` itself whenever `o` lies on a
cycle (`ReachPlus g o o`), contrary to the claim that the candidate is
never added. -/
theorem claim_C9_optional_merge (g : Graph) (o : String) (deps0 : List String)
    (hwf : WFGraph g) (ho : o ∈ g.nodeNames)
    (hcl : ∀ v ∈ deps0, ∀ d, Edge g v d → d ∈ deps0) :
    ∃ D, mergeLoop g [o] deps0 = .ok D ∧
      (∀ x, x ∈ D ↔ x ∈ deps0 ∨ ReachPlus g o x) ∧
      (o ∈ D ↔ o ∈ deps0 ∨ ReachPlus g o o) := by
  obtain ⟨D, hD⟩ := mergeLoop_total g hwf [o] deps0 (by
    intro s hs
    have hso : s = o := by simpa using hs
    exact hso ▸ ho)
  have hiff : ∀ x, x ∈ D ↔ x ∈ deps0 ∨ ReachPlus g o x := by
    intro x
    constructor
    · intro hx
      rcases mergeLoop_sound g [o] deps0 D hD x hx with h | ⟨s, hs, hr⟩
      · exact Or.inl h
      · have hso : s = o := by simpa using hs
        exact Or.inr (hso ▸ hr)
    · rintro (h | hr)
      · exact mergeLoop_sub g [o] deps0 D hD x h
      · have hclD : ∀ y ∈ D, ∀ d, Edge g y d → d ∈ D := by
          intro y hy d hyd
          rcases mergeLoop_expanded g [o] deps0 D hD y hy with h0 | hexp
          · exact mergeLoop_sub g [o] deps0 D hD d (hcl y h0 d hyd)
          · exact hexp d hyd
        obtain ⟨l, hch, hl⟩ := hr
        exact chain_last_mem_closed g D hclD l o x hch hl
          (fun d hd => mergeLoop_stack_succs g [o] deps0 D hD o
            (List.mem_cons_self _ _) d hd)
  exact ⟨D, hD, hiff, hiff o⟩

/-- Witness for the amended claim C9 on `optGraph`: merging the candidate
`o` into the empty (vacuously closed) dependency set. -/
theorem claim_C9_optional_merge_witness :
    WFGraph optGraph ∧ "o" ∈ optGraph.nodeNames ∧
    (∃ D, mergeLoop optGraph ["o"] [] = .ok D ∧
      (∀ x, x ∈ D ↔ x ∈ ([] : List String) ∨ ReachPlus optGraph "o" x) ∧
      ("o" ∈ D ↔ "o" ∈ ([] : List String) ∨ ReachPlus optGraph "o" "o")) :=
  ⟨by decide, by decide,
   claim_C9_optional_merge optGraph "o" [] (by decide) (by decide)
     (fun v hv => absurd hv (List.not_mem_nil v))⟩

/-- Claim C9, counterexample: with the provider accepting the optional
candidate `o` of the root `r`, where `o` sits on the cycle `o <-> p` and
is not a hard dependency of anything, the merge adds `o` itself to the
dependency set (`deps = ["p", "o"]`), while the run with prompts off
shows `o` is not reachable from the root by hard edges (`deps = []`);
the claim asserts the candidate itself is never added. -/
theorem claim_C9_counterexample :
    resolveTrace optGraph ⟨true⟩ (fun _ => none) (fun _ _ => true) "r" true
      = .ok optTrace ∧
    "o" ∈ optTrace.deps ∧
    resolveTrace optGraph ⟨true⟩ (fun _ => none) (fun _ _ => true) "r" false
      = .ok optTraceNoPrompt ∧
    "o" ∉ optTraceNoPrompt.deps := by
  refine ⟨by decide, by decide, by decide, by decide⟩

/-- Claim C5, counterexample to the original wording: for an absent root
with no descriptor available, `resolve` returns the ordinary success
value `([], [])` — it does not fail with a `PackageNotFound` error value
(the module defines no such exception and raises nothing on this path). -/
theorem claim_C5_counterexample :
    resolve emptyGraph ⟨false⟩ (fun _ => none) (fun _ _ => false) "ghost" true
      = .ok ([], []) := by decide

/-- Claim C4, evaluation at the failing input: for the chain
`A -> B -> C`, `mark_for_rebuild("C")` returns `["A", "B", "C"]` — the
target package `C` itself is included, because `nx.has_path(G, C, C)` is
always true — where the claim and the spec say `["A", "B"]`. -/
theorem claim_C4_rebuild_includes_target :
    markForRebuild (buildGraph
      [⟨some "A", none, "", [], [.tok "B"], [], []⟩,
       ⟨some "B", none, "", [], [.tok "C"], [], []⟩,
       ⟨some "C", none, "", [], [], [], []⟩]) (fun _ => []) "C" = ["A", "B", "C"] ∧
    (["A", "B", "C"] : List String) ≠ ["A", "B"] := by
  exact ⟨by decide, by decide⟩

end Newpkg
